import Mathlib

/-!
# lilothar/pkg: shallow embedding of the resolver and the build orchestrator

Sources embedded here:

* `src/pkg/install/build_pkg.go` : `buildPkg`, `generateShell`
* `src/pkg/fetch/src_dl.go`      : `gitSrc`
* `src/install/install.go`       : `get.Run`, `get.dlSrc`, `get.installSubDependency`, `get.gitSrc`

Effects (child processes, the writer, the file system, the network, the
version-control client) are modelled by explicit state passing.  The state of
an effectful run is the history of effectful calls made so far, each with its
outcome; an external operation is an oracle that maps the history and the
arguments of a call to the outcome of that call.  Quantifying over the oracle
quantifies over every behaviour of the outside world.
-/

namespace Pkg

/-- Go `error` values; `Option Err` is a Go `error` result, `none` being `nil`. -/
abbrev Err := String

/-- An effectful call, with arguments `call`, together with the error it
returned. A history of effects is a list of these, oldest first. -/
structure Called (C : Type) where
  call : C
  result : Option Err
deriving DecidableEq, Repr

/-! ## `src/pkg/install/build_pkg.go` -/

/-- Modelled from the spec: `pkg.PackageMeta` is not in src/; these are the
fields that `buildPkg` and `generateShell` read (package name, source path,
self build and outer build of the spec's data model). -/
structure PackageMeta where
  PackageName : String
  SrcPath : String
  SelfBuild : List String
  Builder : List String
deriving DecidableEq, Repr

/-- The arguments of one call `RunIns(pkgHome, packageName, srcPath, ins, verbose)`. -/
structure RunCall where
  pkgHome : String
  packageName : String
  srcPath : String
  ins : String
  verbose : Bool
deriving DecidableEq, Repr

/-- One call of `RunIns` together with the error it returned. -/
abbrev RunEvent := Called RunCall

/-- The helpers of package `pkg` that `build_pkg.go` calls and that work on the
process environment.  `Env` is the state of the process environment, which
only `AddVendorPathEnv` and `AddPathEnv` change (a child process run by
`RunIns` and a write to the writer do not).  `AddPathEnv` returns an error
next to the new environment. -/
structure EnvLib (Env : Type) where
  AddVendorPathEnv : String → Env → Env
  AddPathEnv : String → Env → Env × Option Err
  ProcessEnv : Env → String → String

/-- The state threaded through `buildPkg`: process environment and the calls of
`RunIns` made so far. -/
structure BuildState (Env : Type) where
  env : Env
  log : List RunEvent

/-- One `for _, ins := range ...` loop of `buildPkg` (lines 24-29 and 32-36):
every instruction is substituted and handed to `RunIns`; the first error
returns. -/
def runLoop {Env : Type} (L : EnvLib Env) (RunIns : List RunEvent → RunCall → Option Err)
    (pkgHome : String) (m : PackageMeta) (verbose : Bool) (env : Env) :
    List String → List RunEvent → List RunEvent × Option Err
  | [], log => (log, none)
  | ins :: rest, log =>
    let c : RunCall := ⟨pkgHome, m.PackageName, m.SrcPath, L.ProcessEnv env ins, verbose⟩
    match RunIns log c with
    | some e => (log ++ [⟨c, some e⟩], some e)
    | none => runLoop L RunIns pkgHome m verbose env rest (log ++ [⟨c, none⟩])

/-- The body of the loop over `metas` in `buildPkg` (lines 15-41). The error of
`AddPathEnv` is dropped, as in the source. -/
def buildPkgStep {Env : Type} (L : EnvLib Env) (RunIns : List RunEvent → RunCall → Option Err)
    (pkgHome : String) (verbose : Bool) (m : PackageMeta) (s : BuildState Env) :
    BuildState Env × Option Err :=
  let env1 := L.AddVendorPathEnv pkgHome s.env
  let env2 := (L.AddPathEnv m.PackageName env1).1
  if m.Builder.length = 0 then
    let r := runLoop L RunIns pkgHome m verbose env2 m.SelfBuild s.log
    (⟨env2, r.1⟩, r.2)
  else
    let r := runLoop L RunIns pkgHome m verbose env2 m.Builder s.log
    (⟨env2, r.1⟩, r.2)

/-- Embedding of `buildPkg(metas, pkgHome, verbose)`. -/
def buildPkg {Env : Type} (L : EnvLib Env) (RunIns : List RunEvent → RunCall → Option Err)
    (pkgHome : String) (verbose : Bool) :
    List PackageMeta → BuildState Env → BuildState Env × Option Err
  | [], s => (s, none)
  | m :: rest, s =>
    match buildPkgStep L RunIns pkgHome verbose m s with
    | (s1, some e) => (s1, some e)
    | (s1, none) => buildPkg L RunIns pkgHome verbose rest s1

/-- One operation on the `bufio.Writer`: `w.WriteString(text)` or
`WriteIns(w, pkgHome, packageName, ins)`. -/
inductive WriteCall where
  | str (text : String)
  | ins (pkgHome packageName ins : String)
deriving DecidableEq, Repr

/-- One writer operation together with the error it returned. -/
abbrev WriteEvent := Called WriteCall

/-- The state threaded through `generateShell`: process environment and the
writer operations made so far. -/
structure ShellState (Env : Type) where
  env : Env
  out : List WriteEvent

/-- One `for _, ins := range ...` loop of `generateShell` (lines 62-67 and 70-74). -/
def writeLoop {Env : Type} (L : EnvLib Env) (Write : List WriteEvent → WriteCall → Option Err)
    (pkgHome : String) (m : PackageMeta) (env : Env) :
    List String → List WriteEvent → List WriteEvent × Option Err
  | [], out => (out, none)
  | ins :: rest, out =>
    let c : WriteCall := .ins pkgHome m.PackageName (L.ProcessEnv env ins)
    match Write out c with
    | some e => (out ++ [⟨c, some e⟩], some e)
    | none => writeLoop L Write pkgHome m env rest (out ++ [⟨c, none⟩])

/-- The header `fmt.Sprintf("\n## pacakge %s\n", meta.PackageName)`. -/
def header (packageName : String) : String :=
  "\n## pacakge " ++ packageName ++ "\n"

/-- The body of the loop over `metas` in `generateShell` (lines 51-75). -/
def generateShellStep {Env : Type} (L : EnvLib Env)
    (Write : List WriteEvent → WriteCall → Option Err)
    (pkgHome : String) (m : PackageMeta) (s : ShellState Env) :
    ShellState Env × Option Err :=
  let h : WriteCall := .str (header m.PackageName)
  match Write s.out h with
  | some e => (⟨s.env, s.out ++ [⟨h, some e⟩]⟩, some e)
  | none =>
    let out1 := s.out ++ [⟨h, none⟩]
    let env1 := L.AddVendorPathEnv pkgHome s.env
    match L.AddPathEnv m.PackageName env1 with
    | (env2, some e) => (⟨env2, out1⟩, some e)
    | (env2, none) =>
      if m.Builder.length = 0 then
        let r := writeLoop L Write pkgHome m env2 m.SelfBuild out1
        (⟨env2, r.1⟩, r.2)
      else
        let r := writeLoop L Write pkgHome m env2 m.Builder out1
        (⟨env2, r.1⟩, r.2)

/-- The loop over `metas` in `generateShell` (lines 50-76). -/
def generateShellLoop {Env : Type} (L : EnvLib Env)
    (Write : List WriteEvent → WriteCall → Option Err) (pkgHome : String) :
    List PackageMeta → ShellState Env → ShellState Env × Option Err
  | [], s => (s, none)
  | m :: rest, s =>
    match generateShellStep L Write pkgHome m s with
    | (s1, some e) => (s1, some e)
    | (s1, none) => generateShellLoop L Write pkgHome rest s1

/-- Embedding of `generateShell(w, metas, pkgHome)`. -/
def generateShell {Env : Type} (L : EnvLib Env)
    (Write : List WriteEvent → WriteCall → Option Err)
    (metas : List PackageMeta) (pkgHome : String) (s : ShellState Env) :
    ShellState Env × Option Err :=
  let h : WriteCall := .str "#!/bin/sh\n"
  match Write s.out h with
  | some e => (⟨s.env, s.out ++ [⟨h, some e⟩]⟩, some e)
  | none => generateShellLoop L Write pkgHome metas ⟨s.env, s.out ++ [⟨h, none⟩]⟩

/-! ## `src/pkg/fetch/src_dl.go` and `src/install/install.go`: `gitSrc` -/

/-- Modelled from the spec: `pkg.Auth` is not in src/; the credential entry
`{ host, username, token }` of the spec, with the field names `gitSrc` reads. -/
structure Auth where
  Host : String
  Username : String
  Token : String
deriving DecidableEq, Repr

/-- One effectful call made by `gitSrc`. `Worktree` is `repos.Worktree()` on the
repository the clone returned, `Checkout hash` is
`worktree.Checkout(&git.CheckoutOptions{Hash: plumbing.NewHash(hash)})`. -/
inductive GitOp where
  | MkdirAll (path : String)
  | PlainClone (path : String) (isBare : Bool) (URL : String) (ReferenceName : String)
  | Worktree
  | Checkout (hash : String)
  | RemoveAll (path : String)
deriving DecidableEq, Repr

/-- One effectful call of `gitSrc` together with the error it returned. -/
abbrev GitEvent := Called GitOp

/-- What `gitSrc` uses from `net/url`, `path/filepath`, `os` and go-git. `URL`
is the type of parsed URLs; `SetUser u name password` is `u` after
`u.User = url.UserPassword(name, password)`; `Exec` is the outcome of an
effectful call given the calls made before it. -/
structure GitLib (URL : Type) where
  Parse : String → Except Err URL
  Host : URL → String
  SetUser : URL → String → String → URL
  UrlString : URL → String
  Join : String → String → String
  Exec : List GitEvent → GitOp → Option Err

/-- The loop `for _, auth := range auths` of `gitSrc` (src_dl.go lines 117-123):
the first entry whose host equals the host of the parsed URL rewrites
`repoUrl`, and the loop breaks. -/
def authLoop {URL : Type} (G : GitLib URL) (gitUrl : URL) : List Auth → String → String
  | [], repoUrl => repoUrl
  | auth :: rest, repoUrl =>
    if auth.Host = G.Host gitUrl then
      G.UrlString (G.SetUser gitUrl auth.Username auth.Token)
    else authLoop G gitUrl rest repoUrl

/-- The end of `gitSrc`: `os.RemoveAll(filepath.Join(repositoryPrefix, ".git"))`
and `return nil`. -/
def removeGitDir {URL : Type} (G : GitLib URL) (repositoryPrefix : String)
    (log : List GitEvent) : List GitEvent × Option Err :=
  let c := GitOp.RemoveAll (G.Join repositoryPrefix ".git")
  match G.Exec log c with
  | some e => (log ++ [⟨c, some e⟩], some e)
  | none => (log ++ [⟨c, none⟩], none)

/-- Embedding of `gitSrc(auths, repositoryPrefix, packageName, gitPath, hash,
branch, tag)` of `src/pkg/fetch/src_dl.go`. -/
def gitSrc {URL : Type} (G : GitLib URL) (auths : List Auth)
    (repositoryPrefix _packageName gitPath hash branch tag : String)
    (log : List GitEvent) : List GitEvent × Option Err :=
  match G.Exec log (.MkdirAll repositoryPrefix) with
  | some e => (log ++ [⟨.MkdirAll repositoryPrefix, some e⟩], some e)
  | none =>
    let log1 := log ++ [⟨.MkdirAll repositoryPrefix, none⟩]
    match G.Parse gitPath with
    | .error e => (log1, some e)
    | .ok gitUrl =>
      let repoUrl := authLoop G gitUrl auths gitPath
      let referenceName : String :=
        if branch ≠ "" then "refs/heads/" ++ branch
        else if tag ≠ "" then "refs/tags/" ++ tag
        else ""
      let c := GitOp.PlainClone repositoryPrefix false repoUrl referenceName
      match G.Exec log1 c with
      | some e => (log1 ++ [⟨c, some e⟩], some e)
      | none =>
        let log2 := log1 ++ [⟨c, none⟩]
        if hash ≠ "" then
          match G.Exec log2 .Worktree with
          | some e => (log2 ++ [⟨.Worktree, some e⟩], some e)
          | none =>
            let log3 := log2 ++ [⟨.Worktree, none⟩]
            match G.Exec log3 (.Checkout hash) with
            | some e => (log3 ++ [⟨.Checkout hash, some e⟩], some e)
            | none => removeGitDir G repositoryPrefix (log3 ++ [⟨.Checkout hash, none⟩])
        else removeGitDir G repositoryPrefix log2

/-- Embedding of `get.gitSrc(repositoryPrefix, packageName, gitPath, hash,
branch, tag)` of `src/install/install.go`, which clones from `gitPath` as
given. -/
def get_gitSrc {URL : Type} (G : GitLib URL)
    (repositoryPrefix _packageName gitPath hash branch tag : String)
    (log : List GitEvent) : List GitEvent × Option Err :=
  match G.Exec log (.MkdirAll repositoryPrefix) with
  | some e => (log ++ [⟨.MkdirAll repositoryPrefix, some e⟩], some e)
  | none =>
    let log1 := log ++ [⟨.MkdirAll repositoryPrefix, none⟩]
    let referenceName : String :=
      if branch ≠ "" then "refs/heads/" ++ branch
      else if tag ≠ "" then "refs/tags/" ++ tag
      else ""
    let c := GitOp.PlainClone repositoryPrefix false gitPath referenceName
    match G.Exec log1 c with
    | some e => (log1 ++ [⟨c, some e⟩], some e)
    | none =>
      let log2 := log1 ++ [⟨c, none⟩]
      if hash ≠ "" then
        match G.Exec log2 .Worktree with
        | some e => (log2 ++ [⟨.Worktree, some e⟩], some e)
        | none =>
          let log3 := log2 ++ [⟨.Worktree, none⟩]
          match G.Exec log3 (.Checkout hash) with
          | some e => (log3 ++ [⟨.Checkout hash, some e⟩], some e)
          | none => removeGitDir G repositoryPrefix (log3 ++ [⟨.Checkout hash, none⟩])
      else removeGitDir G repositoryPrefix log2

/-! ## `src/install/install.go`: the resolver -/

/-- The constant `DlStatusEmpty = iota`. -/
def DlStatusEmpty : Nat := 0
/-- The constant `DlStatusSkip`. -/
def DlStatusSkip : Nat := 1
/-- The constant `DlStatusOk`. -/
def DlStatusOk : Nat := 2

/-- The struct `DepPkgContext`. -/
structure DepPkgContext where
  PackageName : String
  SrcPath : String
deriving DecidableEq, Repr

/-- The struct `DependencyTree`; the children are held by value, a mutation
through the Go pointer `*DependencyTree` is a new value put in its place. -/
inductive DependencyTree where
  | mk (DepPkgContext : DepPkgContext) (Dependency : List DependencyTree)
      (Builder : List String) (DlStatus : Nat)
deriving Repr

namespace DependencyTree

/-- The embedded field `DepPkgContext`. -/
def ctx : DependencyTree → DepPkgContext
  | mk c _ _ _ => c
/-- The promoted field `PackageName`. -/
def PackageName (t : DependencyTree) : String := t.ctx.PackageName
/-- The promoted field `SrcPath`. -/
def SrcPath (t : DependencyTree) : String := t.ctx.SrcPath
/-- The field `Dependency`. -/
def Dependency : DependencyTree → List DependencyTree
  | mk _ d _ _ => d
/-- The field `Builder`. -/
def Builder : DependencyTree → List String
  | mk _ _ b _ => b
/-- The field `DlStatus`. -/
def DlStatus : DependencyTree → Nat
  | mk _ _ _ s => s
/-- The assignment `t.Dependency = d`. -/
def setDependency : DependencyTree → List DependencyTree → DependencyTree
  | mk c _ b s, d => mk c d b s
/-- The assignment `t.DlStatus = s`. -/
def setDlStatus : DependencyTree → Nat → DependencyTree
  | mk c d b _, s => mk c d b s

end DependencyTree

/-- Modelled from the spec: `utils.Package` is not in src/; the manifest schema
of the spec gives `build.self` and `build.build`, the source reads
`pkg.Package.Build`. -/
structure Package where
  SelfBuild : List String
  Build : List String
deriving DecidableEq, Repr

/-- Modelled from the spec: an archive entry of `utils.Packages` (not in src/);
the source reads `pkg.Path`. -/
structure ArchivePackage where
  Path : String
  Package : Package
deriving DecidableEq, Repr

/-- Modelled from the spec: a files entry of `utils.Packages` (not in src/); the
source reads `pkg.Path`, `pkg.Files` and `pkg.Package.Build`. `Files` lists
the pairs (remote suffix, local name) in the order of iteration. -/
structure FilesPackage where
  Path : String
  Files : List (String × String)
  Package : Package
deriving DecidableEq, Repr

/-- Modelled from the spec: a git entry of `utils.Packages` (not in src/); the
source reads `pkg.Path`, `pkg.Hash`, `pkg.Branch`, `pkg.Tag` and
`pkg.Package.Build`. -/
structure GitPackage where
  Path : String
  Hash : String
  Branch : String
  Tag : String
  Package : Package
deriving DecidableEq, Repr

/-- Modelled from the spec: `utils.Packages` is not in src/; each bucket lists
its entries (package name, entry) in the order in which `range` visits them. -/
structure Packages where
  ArchivePackages : List (String × ArchivePackage)
  FilesPackages : List (String × FilesPackage)
  GitPackages : List (String × GitPackage)
deriving DecidableEq, Repr

/-- The outcome of `os.Stat(path)`: `err == nil`, `os.IsNotExist(err)`, or any
other error. -/
inductive StatResult where
  | found
  | notExist
  | failed (e : Err)
deriving DecidableEq, Repr

/-- The outcome of opening `pkg.json`, reading it and decoding it
(`os.Open`, `ioutil.ReadAll`, `json.Unmarshal`). -/
inductive ManifestResult where
  | openNotExist (e : Err)
  | openFailed (e : Err)
  | readFailed (e : Err)
  | unmarshalFailed (e : Err)
  | ok (packages : Packages)
deriving DecidableEq, Repr

/-- One invocation of a fetcher, with its arguments. -/
inductive FetchCall where
  | archiveSrc (srcPath packageName path : String)
  | filesSrc (srcDes packageName baseUrl : String) (files : List (String × String))
  | gitSrc (repositoryPrefix packageName gitPath hash branch tag : String)
deriving DecidableEq, Repr

/-- One invocation of a fetcher together with the error it returned. -/
abbrev Event := Called FetchCall

/-- What the resolver uses from package `utils`, `os`, `path/filepath` and the
decoder, and the outcome of a fetcher invocation, each given the fetcher
invocations made so far. -/
structure Sys where
  PkgFileName : String
  Join : String → String → String
  GetPackageSrcPath : String → String → String
  Stat : List Event → String → StatResult
  ReadManifest : List Event → String → ManifestResult
  Fetch : List Event → FetchCall → Option Err

/-- The receiver `get`: the field `PkgHome`. The field `DepTree` is the tree
that `Run` passes to `dlSrc` by pointer and is threaded as a value. -/
structure get where
  PkgHome : String

/-- How a call of the resolver ends: `return nil`, `return err`, or no return
within the given recursion depth. -/
inductive Res where
  | ok
  | err (e : Err)
  | outOfFuel
deriving DecidableEq, Repr

/-- The state after a call of the resolver: fetcher invocations so far, the tree
behind the pointer `depTree`, and how the call ended. -/
structure DlOut where
  log : List Event
  tree : DependencyTree
  res : Res

/-- The loop over `packages.ArchivePackages` of `dlSrc` (lines 107-115). -/
def archiveLoop (S : Sys) (pkgHome : String) :
    List (String × ArchivePackage) → List Event → List Event × Option Err
  | [], log => (log, none)
  | (key, pkg) :: rest, log =>
    let c := FetchCall.archiveSrc pkgHome key pkg.Path
    match S.Fetch log c with
    | some e => (log ++ [⟨c, some e⟩], some e)
    | none => archiveLoop S pkgHome rest (log ++ [⟨c, none⟩])

/-- The body of the loop over `packages.FilesPackages` of `dlSrc` (lines 118-138). -/
def filesStep (S : Sys) (pkgHome : String) (entry : String × FilesPackage)
    (depTree : DependencyTree) (log : List Event) : DlOut :=
  let key := entry.1
  let pkg := entry.2
  let srcDes := S.GetPackageSrcPath pkgHome key
  let dep := DependencyTree.mk ⟨key, srcDes⟩ [] pkg.Package.Build DlStatusEmpty
  match S.Stat log srcDes with
  | .notExist =>
    let c := FetchCall.filesSrc srcDes key pkg.Path pkg.Files
    match S.Fetch log c with
    | some e => ⟨log ++ [⟨c, some e⟩], depTree, .err e⟩
    | none =>
      ⟨log ++ [⟨c, none⟩],
        depTree.setDependency (depTree.Dependency ++ [dep.setDlStatus DlStatusOk]), .ok⟩
  | .failed e => ⟨log, depTree, .err e⟩
  | .found =>
    ⟨log, depTree.setDependency (depTree.Dependency ++ [dep.setDlStatus DlStatusSkip]), .ok⟩

/-- The loop over `packages.FilesPackages` of `dlSrc` (lines 117-139). -/
def filesLoop (S : Sys) (pkgHome : String) :
    List (String × FilesPackage) → DependencyTree → List Event → DlOut
  | [], depTree, log => ⟨log, depTree, .ok⟩
  | entry :: rest, depTree, log =>
    match filesStep S pkgHome entry depTree log with
    | ⟨log1, t1, .ok⟩ => filesLoop S pkgHome rest t1 log1
    | out => out

/-- Embedding of `get.installSubDependency(installPath, depTree)`; `dl` is the
method `get.dlSrc` it calls. -/
def installSubDependency (S : Sys) (g : get)
    (dl : String → Packages → DependencyTree → List Event → DlOut)
    (installPath : String) (depTree : DependencyTree) (log : List Event) : DlOut :=
  match S.ReadManifest log (S.Join installPath S.PkgFileName) with
  | .ok packages => dl g.PkgHome packages depTree log
  | .readFailed e => ⟨log, depTree, .err e⟩
  | .unmarshalFailed e => ⟨log, depTree, .err e⟩
  | .openNotExist _ => ⟨log, depTree, .ok⟩
  | .openFailed e => ⟨log, depTree, .err e⟩

/-- The lines 162-166 of `dlSrc`: the node `dep` is appended to the children of
`depTree` and `installSubDependency(srcDes, &dep)` works on the appended
node. -/
def gitAttach (S : Sys) (g : get)
    (dl : String → Packages → DependencyTree → List Event → DlOut)
    (srcDes : String) (dep depTree : DependencyTree) (log : List Event) : DlOut :=
  let sub := installSubDependency S g dl srcDes dep log
  ⟨sub.log, depTree.setDependency (depTree.Dependency ++ [sub.tree]), sub.res⟩

/-- The body of the loop over `packages.GitPackages` of `dlSrc` (lines 142-166). -/
def gitStep (S : Sys) (g : get)
    (dl : String → Packages → DependencyTree → List Event → DlOut)
    (pkgHome : String) (entry : String × GitPackage)
    (depTree : DependencyTree) (log : List Event) : DlOut :=
  let key := entry.1
  let pkg := entry.2
  let srcDes := S.GetPackageSrcPath pkgHome key
  let dep := DependencyTree.mk ⟨key, srcDes⟩ [] pkg.Package.Build DlStatusEmpty
  match S.Stat log srcDes with
  | .notExist =>
    let c := FetchCall.gitSrc srcDes key pkg.Path pkg.Hash pkg.Branch pkg.Tag
    match S.Fetch log c with
    | some e => ⟨log ++ [⟨c, some e⟩], depTree, .err e⟩
    | none => gitAttach S g dl srcDes (dep.setDlStatus DlStatusOk) depTree (log ++ [⟨c, none⟩])
  | .failed e => ⟨log, depTree, .err e⟩
  | .found => gitAttach S g dl srcDes (dep.setDlStatus DlStatusSkip) depTree log

/-- The loop over `packages.GitPackages` of `dlSrc` (lines 141-167). -/
def gitLoop (S : Sys) (g : get)
    (dl : String → Packages → DependencyTree → List Event → DlOut) (pkgHome : String) :
    List (String × GitPackage) → DependencyTree → List Event → DlOut
  | [], depTree, log => ⟨log, depTree, .ok⟩
  | entry :: rest, depTree, log =>
    match gitStep S g dl pkgHome entry depTree log with
    | ⟨log1, t1, .ok⟩ => gitLoop S g dl pkgHome rest t1 log1
    | out => out

/-- Embedding of `get.dlSrc(pkgHome, packages, depTree)`. The first argument
bounds the depth of the recursion through `installSubDependency`; the source
has no bound ("todo circle detect"), and a call that needs more depth than
given has the outcome `Res.outOfFuel`. -/
def dlSrc (S : Sys) (g : get) :
    Nat → String → Packages → DependencyTree → List Event → DlOut
  | 0, _, _, depTree, log => ⟨log, depTree, .outOfFuel⟩
  | fuel + 1, pkgHome, packages, depTree, log =>
    match archiveLoop S pkgHome packages.ArchivePackages log with
    | (log1, some e) => ⟨log1, depTree, .err e⟩
    | (log1, none) =>
      match filesLoop S pkgHome packages.FilesPackages depTree log1 with
      | ⟨log2, t2, .ok⟩ => gitLoop S g (dlSrc S g fuel) pkgHome packages.GitPackages t2 log2
      | out => out

/-- How a block of statements ends: with a `return`, or by reaching its end. -/
inductive Flow (α β : Type) where
  | returned (a : α)
  | next (b : β)

/-- The state after `get.Run`: fetcher invocations, the field `get.DepTree`, the
arguments of every call of `buildPkg`, the value returned, and the error
`log.Fatalln` ended the process with. -/
structure RunOut where
  log : List Event
  DepTree : DependencyTree
  builds : List (DependencyTree × String)
  res : Res
  fatal : Option Err

/-- Embedding of `get.Run()`. The `if ... else` of lines 77-89 returns on each
of its paths; lines 92-96 follow it. `buildPkg` is the outcome of the call
`buildPkg(&get.DepTree, get.PkgHome)`. -/
def Run (S : Sys) (buildPkg : DependencyTree → String → Option Err) (g : get)
    (DepTree : DependencyTree) (fuel : Nat) (log : List Event) : RunOut :=
  let block : Flow RunOut (List Event × DependencyTree) :=
    match S.ReadManifest log (S.Join g.PkgHome S.PkgFileName) with
    | .openNotExist e => .returned ⟨log, DepTree, [], .err e, none⟩
    | .openFailed e => .returned ⟨log, DepTree, [], .err e, none⟩
    | .readFailed e => .returned ⟨log, DepTree, [], .err e, none⟩
    | .unmarshalFailed e => .returned ⟨log, DepTree, [], .err e, none⟩
    | .ok packages =>
      let r := dlSrc S g fuel g.PkgHome packages DepTree log
      .returned ⟨r.log, r.tree, [], r.res, none⟩
  match block with
  | .returned out => out
  | .next (log1, t1) =>
    let t2 := t1.setDlStatus DlStatusEmpty
    match buildPkg t2 g.PkgHome with
    | some e => ⟨log1, t2, [(t2, g.PkgHome)], .ok, some e⟩
    | none => ⟨log1, t2, [(t2, g.PkgHome)], .ok, none⟩


/-! ## Vocabulary of the properties -/

/-- The calls of a history, without their outcomes. -/
def calls {C : Type} (log : List (Called C)) : List C := log.map (fun ev => ev.call)

/-- Every call of the history returned `nil`. -/
def allOk {C : Type} (log : List (Called C)) : Prop := ∀ ev ∈ log, ev.result = none

/-- The outcomes recorded in `new` are the ones the oracle `f` gives, each for the
history at the time of the call; `log` is the history before `new`. -/
def Faithful {C : Type} (f : List (Called C) → C → Option Err) :
    List (Called C) → List (Called C) → Prop
  | _, [] => True
  | log, ev :: rest => ev.result = f log ev.call ∧ Faithful f (log ++ [ev]) rest

/-- Running a list of calls in order, stopping at the first one that fails. -/
def seqRun {C : Type} (f : List (Called C) → C → Option Err) :
    List C → List (Called C) → List (Called C) × Option Err
  | [], log => (log, none)
  | c :: cs, log =>
    match f log c with
    | some e => (log ++ [⟨c, some e⟩], some e)
    | none => seqRun f cs (log ++ [⟨c, none⟩])

/-- The instructions handed to `RunIns` by the calls of a history. -/
def insHanded (log : List RunEvent) : List String := log.map (fun ev => ev.call.ins)

/-- The instructions handed to `WriteIns` by the operations of a history. -/
def insWritten (out : List WriteEvent) : List String :=
  out.filterMap (fun ev => match ev.call with
    | .ins _ _ i => some i
    | .str _ => none)

/-- The process environment in which the instructions of package `m` are
substituted, when the environment before the package is `env`. -/
def envFor {Env : Type} (L : EnvLib Env) (pkgHome : String) (m : PackageMeta) (env : Env) : Env :=
  (L.AddPathEnv m.PackageName (L.AddVendorPathEnv pkgHome env)).1

/-- The calls of `RunIns` of a build in which no instruction fails: packages in
list order; within a package its outer-build instructions when there are any,
else its self-build instructions, in list order, each substituted. -/
def plannedCalls {Env : Type} (L : EnvLib Env) (pkgHome : String) (verbose : Bool) :
    List PackageMeta → Env → List RunCall
  | [], _ => []
  | m :: rest, env =>
    (match m.Builder with
      | [] => m.SelfBuild
      | b :: bs => b :: bs).map
      (fun ins => ⟨pkgHome, m.PackageName, m.SrcPath,
        L.ProcessEnv (envFor L pkgHome m env) ins, verbose⟩)
    ++ plannedCalls L pkgHome verbose rest (envFor L pkgHome m env)

/-- The writer operations of one package section of the script: the header, then
one `WriteIns` per chosen, substituted instruction. -/
def plannedSection {Env : Type} (L : EnvLib Env) (pkgHome : String) (m : PackageMeta)
    (env : Env) : List WriteCall :=
  WriteCall.str ("\n## pacakge " ++ m.PackageName ++ "\n") ::
    (match m.Builder with
      | [] => m.SelfBuild
      | b :: bs => b :: bs).map
      (fun ins => WriteCall.ins pkgHome m.PackageName (L.ProcessEnv (envFor L pkgHome m env) ins))

/-- The writer operations of the sections of a list of packages, in list order. -/
def plannedSections {Env : Type} (L : EnvLib Env) (pkgHome : String) :
    List PackageMeta → Env → List WriteCall
  | [], _ => []
  | m :: rest, env =>
    plannedSection L pkgHome m env ++ plannedSections L pkgHome rest (envFor L pkgHome m env)

/-- The writer operations of a whole script: the shebang line, then the sections. -/
def plannedScript {Env : Type} (L : EnvLib Env) (pkgHome : String)
    (metas : List PackageMeta) (env : Env) : List WriteCall :=
  WriteCall.str "#!/bin/sh\n" :: plannedSections L pkgHome metas env

/-- The process environment after the packages of a list have been handled, when
the environment before them is `env`. -/
def envAfter {Env : Type} (L : EnvLib Env) (pkgHome : String) :
    List PackageMeta → Env → Env
  | [], env => env
  | m :: rest, env => envAfter L pkgHome rest (envFor L pkgHome m env)

/-- The call `pkg.AddPathEnv(meta.PackageName)` returns no error for any package
of the list, each call taken in the environment in which `generateShell`
makes it. -/
def envOk {Env : Type} (L : EnvLib Env) (pkgHome : String) :
    List PackageMeta → Env → Prop
  | [], _ => True
  | m :: rest, env =>
    (L.AddPathEnv m.PackageName (L.AddVendorPathEnv pkgHome env)).2 = none ∧
    envOk L pkgHome rest (envFor L pkgHome m env)

/-- The writer operations after the shebang line of a run of `generateShell` in
which no write fails, with the error it ends with: the sections of the
packages in list order, up to and including the header of the first package
for which `AddPathEnv` returns an error. -/
def shellPlan {Env : Type} (L : EnvLib Env) (pkgHome : String) :
    List PackageMeta → Env → List WriteCall × Option Err
  | [], _ => ([], none)
  | m :: rest, env =>
    match (L.AddPathEnv m.PackageName (L.AddVendorPathEnv pkgHome env)).2 with
    | some e => ([WriteCall.str ("\n## pacakge " ++ m.PackageName ++ "\n")], some e)
    | none =>
      (plannedSection L pkgHome m env ++ (shellPlan L pkgHome rest (envFor L pkgHome m env)).1,
        (shellPlan L pkgHome rest (envFor L pkgHome m env)).2)

/-- The pairs (URL, ReferenceName) of the clones of a history. -/
def cloneCalls (log : List GitEvent) : List (String × String) :=
  log.filterMap (fun ev => match ev.call with
    | .PlainClone _ _ url ref => some (url, ref)
    | _ => none)

/-- The history has a clone that returned no error. -/
def cloneOk (log : List GitEvent) : Prop :=
  ∃ ev ∈ log, (∃ p b url ref, ev.call = GitOp.PlainClone p b url ref) ∧ ev.result = none

/-- The commits of the checkouts of a history. -/
def checkouts (log : List GitEvent) : List String :=
  log.filterMap (fun ev => match ev.call with
    | .Checkout hash => some hash
    | _ => none)

/-- The part of `gitSrc` from the clone on (src_dl.go lines 152-185, the same
text as install.go lines 284-314), as a function of the URL and the reference
of the clone. -/
def cloneTail {URL : Type} (G : GitLib URL) (repositoryPrefix repoUrl referenceName hash : String)
    (log1 : List GitEvent) : List GitEvent × Option Err :=
  let c := GitOp.PlainClone repositoryPrefix false repoUrl referenceName
  match G.Exec log1 c with
  | some e => (log1 ++ [⟨c, some e⟩], some e)
  | none =>
    let log2 := log1 ++ [⟨c, none⟩]
    if hash ≠ "" then
      match G.Exec log2 .Worktree with
      | some e => (log2 ++ [⟨.Worktree, some e⟩], some e)
      | none =>
        let log3 := log2 ++ [⟨.Worktree, none⟩]
        match G.Exec log3 (.Checkout hash) with
        | some e => (log3 ++ [⟨.Checkout hash, some e⟩], some e)
        | none => removeGitDir G repositoryPrefix (log3 ++ [⟨.Checkout hash, none⟩])
    else removeGitDir G repositoryPrefix log2

/-- The reference `gitSrc` computes from `branch` and `tag` (src_dl.go lines
127-150, install.go lines 273-282). -/
def referenceName (branch tag : String) : String :=
  if branch ≠ "" then "refs/heads/" ++ branch
  else if tag ≠ "" then "refs/tags/" ++ tag
  else ""

/-- How the outcome of a resolver call relates to the fetcher invocations it made:
either all of them returned `nil`, or all but the last did and the error of
the last is the error the call returns. -/
def FailShape (new : List Event) (res : Res) : Prop :=
  allOk new ∨ ∃ pre c e, new = pre ++ [⟨c, some e⟩] ∧ allOk pre ∧ res = .err e

/-- An invocation of `filesSrc` or `gitSrc` made after the history `log` is made
when `os.Stat` of its destination reports that the path does not exist. -/
def statOk (S : Sys) (log : List Event) : FetchCall → Prop
  | .archiveSrc _ _ _ => True
  | .filesSrc srcDes _ _ _ => S.Stat log srcDes = .notExist
  | .gitSrc srcDes _ _ _ _ _ => S.Stat log srcDes = .notExist

/-- Every invocation of `filesSrc` or `gitSrc` in `new` was made when `os.Stat`
of its destination reported that the path does not exist; `log` is the
history before `new`. -/
def StatChecked (S : Sys) : List Event → List Event → Prop
  | _, [] => True
  | log, ev :: rest => statOk S log ev.call ∧ StatChecked S (log ++ [ev]) rest

/-- What every call of the resolver keeps, however it ends: the history grows by
the invocations `new`, the tree keeps its fields and gets the nodes `added`
after its children. -/
def Inv (S : Sys) (log : List Event) (t : DependencyTree) (out : DlOut) : Prop :=
  ∃ new added, out.log = log ++ new ∧
    out.tree = t.setDependency (t.Dependency ++ added) ∧
    FailShape new out.res ∧ Faithful S.Fetch log new ∧ StatChecked S log new

/-- The name, the source path and the outer build of a node. -/
def nodeKey (n : DependencyTree) : String × String × List String :=
  (n.PackageName, n.SrcPath, n.Builder)

/-- The name, the source path and the outer build that `dlSrc` gives the node of
a manifest entry `key` with outer build `build`. -/
def entryKey (S : Sys) (pkgHome key : String) (build : List String) :
    String × String × List String :=
  (key, S.GetPackageSrcPath pkgHome key, build)

/-- The nodes `F` and `G` are one per files entry and one per git entry of the
manifest, in order, each with the name, path and outer build of its entry
and a status `Skip` or `Ok`; the nodes of files entries have no children. -/
def NodesFor (S : Sys) (pkgHome : String) (packages : Packages)
    (F G : List DependencyTree) : Prop :=
  F.map nodeKey = packages.FilesPackages.map
    (fun e => entryKey S pkgHome e.1 e.2.Package.Build) ∧
  G.map nodeKey = packages.GitPackages.map
    (fun e => entryKey S pkgHome e.1 e.2.Package.Build) ∧
  (∀ n ∈ F ++ G, n.DlStatus = DlStatusSkip ∨ n.DlStatus = DlStatusOk) ∧
  (∀ n ∈ F, n.Dependency = [])

/-! ## Concrete instances -/

/-- A process environment kept as one string: `AddVendorPathEnv` stores the
vendor root, `AddPathEnv` appends the package name and fails on a name with a
NUL character, `ProcessEnv` tags the instruction with the environment. -/
def demoLib : EnvLib String where
  AddVendorPathEnv := fun pkgHome _ => pkgHome
  AddPathEnv := fun name env =>
    (env ++ "/" ++ name,
      if name.data.any (fun ch => ch.toNat = 0) then some "setenv: invalid argument" else none)
  ProcessEnv := fun env ins => ins ++ " @" ++ env

/-- A `RunIns` that never fails. -/
def okRun : List RunEvent → RunCall → Option Err := fun _ _ => none

/-- A `RunIns` that fails on the instruction `bad` and on nothing else. -/
def failRun (bad : String) : List RunEvent → RunCall → Option Err :=
  fun _ c => if c.ins = bad then some "exit status 1" else none

/-- A writer on which every operation succeeds. -/
def okWrite : List WriteEvent → WriteCall → Option Err := fun _ _ => none

/-- A package with both an outer build and a self build. -/
def demoMeta : PackageMeta := ⟨"libfoo", "/home/vendor/src/libfoo", ["make self"], ["cmake .", "make"]⟩

/-- A package with a self build only, of three instructions. -/
def demoMeta3 : PackageMeta := ⟨"libbar", "/home/vendor/src/libbar", ["one", "two", "three"], []⟩

/-- A package without instructions. -/
def emptyMeta : PackageMeta := ⟨"empty", "/home/vendor/src/empty", [], []⟩

/-- A package whose name has a NUL character and that has an outer build. -/
def nulBuilderMeta : PackageMeta :=
  ⟨String.mk [Char.ofNat 0], "/home/vendor/src/x", ["make self"], ["make"]⟩

/-- A package whose name has a NUL character. -/
def nulMeta : PackageMeta := ⟨String.mk [Char.ofNat 0], "/home/vendor/src/x", ["make"], []⟩

/-- A parsed URL of the demonstration library. -/
structure DemoUrl where
  scheme : String
  user : Option (String × String)
  host : String
  path : String
deriving DecidableEq, Repr

/-- A library in which every effectful call succeeds and the parser knows two
repository URLs. -/
def demoGit : GitLib DemoUrl where
  Parse := fun s =>
    if s = "https://example.test/libfoo.git" then .ok ⟨"https", none, "example.test", "/libfoo.git"⟩
    else if s = "https://other.test/libbar.git" then .ok ⟨"https", none, "other.test", "/libbar.git"⟩
    else .error "parse error"
  Host := fun u => u.host
  SetUser := fun u name password => { u with user := some (name, password) }
  UrlString := fun u =>
    match u.user with
    | some (name, password) => u.scheme ++ "://" ++ name ++ ":" ++ password ++ "@" ++ u.host ++ u.path
    | none => u.scheme ++ "://" ++ u.host ++ u.path
  Join := fun a b => a ++ "/" ++ b
  Exec := fun _ _ => none

/-- The library `demoGit` with a `repos.Worktree()` that fails. -/
def bareGit : GitLib DemoUrl :=
  { demoGit with
    Exec := fun _ op =>
      match op with
      | .Worktree => some "worktree not available in a bare repository"
      | _ => none }

/-- A credential list with two entries for the same host after one for another. -/
def demoAuths : List Auth :=
  [⟨"other.test", "carol", "t0"⟩, ⟨"example.test", "alice", "t1"⟩, ⟨"example.test", "bob", "t2"⟩]

/-- The destination path of a fetcher invocation. -/
def FetchCall.dest : FetchCall → String
  | .archiveSrc srcPath _ _ => srcPath
  | .filesSrc srcDes _ _ _ => srcDes
  | .gitSrc repositoryPrefix _ _ _ _ _ => repositoryPrefix

/-- The manifest of the demonstration project: one archive, one files and one
git package. -/
def rootManifest : Packages where
  ArchivePackages := [("zlib", ⟨"https://example.test/zlib.zip", ⟨[], []⟩⟩)]
  FilesPackages := [("hdr", ⟨"https://example.test/hdr", [("a.h", "a.h")], ⟨[], ["echo hdr"]⟩⟩)]
  GitPackages := [("libA", ⟨"https://example.test/libA.git", "", "main", "", ⟨["make"], ["make A"]⟩⟩)]

/-- The manifest found in the source of `libA`: one files and one git package. -/
def nestedManifest : Packages where
  ArchivePackages := []
  FilesPackages := [("fB", ⟨"https://example.test/fB", [("b.h", "b.h")], ⟨[], []⟩⟩)]
  GitPackages := [("libB", ⟨"https://example.test/libB.git", "", "", "v2", ⟨["make"], []⟩⟩)]

/-- A manifest whose second files package cannot be downloaded. -/
def badManifest : Packages where
  ArchivePackages := []
  FilesPackages := [("hdr", ⟨"https://example.test/hdr", [("a.h", "a.h")], ⟨[], []⟩⟩),
    ("bad", ⟨"https://example.test/bad", [("c.h", "c.h")], ⟨[], []⟩⟩)]
  GitPackages := [("libA", ⟨"https://example.test/libA.git", "", "main", "", ⟨["make"], []⟩⟩)]

/-- A manifest with one archive package. -/
def archiveManifest : Packages where
  ArchivePackages := [("zlib", ⟨"https://example.test/zlib.zip", ⟨[], []⟩⟩)]
  FilesPackages := []
  GitPackages := []

/-- A file system in which the paths of `existing` exist from the start and a
path exists once a fetcher has succeeded on it; the project manifest is at
`/proj/pkg.json`, the sources of `libA` and of `libC` carry a manifest, no
other directory does; every fetcher succeeds except on the package `bad`. -/
def demoSys (existing : List String) : Sys where
  PkgFileName := "pkg.json"
  Join := fun a b => a ++ "/" ++ b
  GetPackageSrcPath := fun pkgHome name => pkgHome ++ "/vendor/src/" ++ name
  Stat := fun log path =>
    if path ∈ existing ∨ ∃ ev ∈ log, ev.result = none ∧ ev.call.dest = path then .found
    else .notExist
  ReadManifest := fun _ path =>
    if path = "/proj/pkg.json" then .ok rootManifest
    else if path = "/proj/vendor/src/libA/pkg.json" then .ok nestedManifest
    else if path = "/proj/vendor/src/libC/pkg.json" then .ok badManifest
    else .openNotExist "open: no such file or directory"
  Fetch := fun _ c =>
    match c with
    | .filesSrc _ name _ _ =>
      if name = "bad" then some "http response code is not ok (200)" else none
    | _ => none

/-- The tree `get.DepTree` before resolution: the zero value of the struct. -/
def rootTree : DependencyTree := .mk ⟨"", ""⟩ [] [] DlStatusEmpty

/-! ## Properties -/

section generic

variable {C : Type}

theorem allOk_nil : allOk ([] : List (Called C)) := by
  intro ev h; cases h

theorem allOk_cons (ev : Called C) (l : List (Called C)) :
    allOk (ev :: l) ↔ ev.result = none ∧ allOk l := by
  simp [allOk]

theorem allOk_append (a b : List (Called C)) : allOk (a ++ b) ↔ allOk a ∧ allOk b := by
  simp only [allOk, List.mem_append]
  constructor
  · intro h; exact ⟨fun ev hev => h ev (Or.inl hev), fun ev hev => h ev (Or.inr hev)⟩
  · rintro ⟨h1, h2⟩ ev (hev | hev)
    · exact h1 ev hev
    · exact h2 ev hev

theorem Faithful_append (f : List (Called C) → C → Option Err) (a b log : List (Called C)) :
    Faithful f log (a ++ b) ↔ Faithful f log a ∧ Faithful f (log ++ a) b := by
  induction a generalizing log with
  | nil => simp [Faithful]
  | cons ev a ih =>
    show (ev.result = f log ev.call ∧ Faithful f (log ++ [ev]) (a ++ b)) ↔
      (ev.result = f log ev.call ∧ Faithful f (log ++ [ev]) a) ∧ Faithful f (log ++ ev :: a) b
    rw [ih]
    have h : log ++ [ev] ++ a = log ++ ev :: a := by simp
    rw [h]
    exact and_assoc.symm

theorem Faithful_split (f : List (Called C) → C → Option Err) (log pre post : List (Called C))
    (ev : Called C) (h : Faithful f log (pre ++ ev :: post)) :
    ev.result = f (log ++ pre) ev.call := by
  rw [Faithful_append] at h
  exact h.2.1

/-- A failed call in a history all of whose calls but the last returned `nil` is
the last call. -/
theorem failed_is_last (pre pre2 post : List (Called C)) (c : C) (e e2 : Err) (ev : Called C)
    (hpre : allOk pre) (hsplit : pre ++ [⟨c, some e⟩] = pre2 ++ ev :: post)
    (hev : ev.result = some e2) : post = [] ∧ e2 = e := by
  rcases List.append_eq_append_iff.mp hsplit with ⟨a, h1, h2⟩ | ⟨a, h1, h2⟩
  · -- pre2 = pre ++ a, [c] = a ++ ev :: post
    cases a with
    | nil =>
      simp only [List.nil_append, List.cons.injEq] at h2
      obtain ⟨h3, h4⟩ := h2
      subst h3
      simp only [Option.some.injEq] at hev
      exact ⟨h4.symm, hev.symm⟩
    | cons x a =>
      simp only [List.cons_append, List.cons.injEq] at h2
      have := h2.2
      simp at this
  · -- pre = pre2 ++ a, ev :: post = a ++ [c]
    cases a with
    | nil =>
      simp only [List.nil_append, List.cons.injEq] at h2
      obtain ⟨h3, h4⟩ := h2
      subst h3
      simp only [Option.some.injEq] at hev
      exact ⟨h4, hev.symm⟩
    | cons x a =>
      simp only [List.cons_append, List.cons.injEq] at h2
      obtain ⟨h3, _⟩ := h2
      subst h3
      have : ev.result = none := hpre ev (by rw [h1]; simp)
      rw [this] at hev
      cases hev

theorem seqRun_char (f : List (Called C) → C → Option Err) (cs : List C) (log : List (Called C)) :
    ∃ new, (seqRun f cs log).1 = log ++ new ∧ Faithful f log new ∧
      (((seqRun f cs log).2 = none ∧ calls new = cs ∧ allOk new) ∨
       (∃ pre c e post, cs = calls pre ++ c :: post ∧ new = pre ++ [⟨c, some e⟩] ∧
          allOk pre ∧ (seqRun f cs log).2 = some e)) := by
  induction cs generalizing log with
  | nil => exact ⟨[], by simp [seqRun], trivial, Or.inl ⟨rfl, rfl, allOk_nil⟩⟩
  | cons c cs ih =>
    cases h : f log c with
    | some e =>
      refine ⟨[⟨c, some e⟩], by simp [seqRun, h], ⟨h.symm, trivial⟩, Or.inr ⟨[], c, e, cs, ?_⟩⟩
      simp [seqRun, h, calls, allOk_nil]
    | none =>
      obtain ⟨new, h1, h2, h3⟩ := ih (log ++ [⟨c, none⟩])
      refine ⟨⟨c, none⟩ :: new, by simp [seqRun, h, h1], ⟨h.symm, h2⟩, ?_⟩
      rcases h3 with ⟨h4, h5, h6⟩ | ⟨pre, c2, e, post, h4, h5, h6, h7⟩
      · left
        refine ⟨by simpa [seqRun, h] using h4, by simp [calls] at h5 ⊢; exact h5, ?_⟩
        exact (allOk_cons _ _).mpr ⟨rfl, h6⟩
      · right
        refine ⟨⟨c, none⟩ :: pre, c2, e, post, by simp [calls] at h4 ⊢; exact h4, by simp [h5],
          (allOk_cons _ _).mpr ⟨rfl, h6⟩, by simpa [seqRun, h] using h7⟩

theorem seqRun_append (f : List (Called C) → C → Option Err) (a b : List C)
    (log : List (Called C)) :
    seqRun f (a ++ b) log =
      match seqRun f a log with
      | (l1, some e) => (l1, some e)
      | (l1, none) => seqRun f b l1 := by
  induction a generalizing log with
  | nil => simp [seqRun]
  | cons c cs ih =>
    cases h : f log c with
    | some e => simp [seqRun, h]
    | none => simp [seqRun, h, ih]

end generic

section build

variable {Env : Type}

theorem runLoop_eq_seqRun (L : EnvLib Env) (RunIns : List RunEvent → RunCall → Option Err)
    (pkgHome : String) (m : PackageMeta) (verbose : Bool) (env : Env) (l : List String)
    (log : List RunEvent) :
    runLoop L RunIns pkgHome m verbose env l log =
      seqRun RunIns (l.map (fun ins =>
        (⟨pkgHome, m.PackageName, m.SrcPath, L.ProcessEnv env ins, verbose⟩ : RunCall))) log := by
  induction l generalizing log with
  | nil => rfl
  | cons ins rest ih =>
    simp only [runLoop, List.map_cons, seqRun]
    split <;> simp_all

theorem buildPkgStep_eq (L : EnvLib Env) (RunIns : List RunEvent → RunCall → Option Err)
    (pkgHome : String) (verbose : Bool) (m : PackageMeta) (s : BuildState Env) :
    buildPkgStep L RunIns pkgHome verbose m s =
      (⟨envFor L pkgHome m s.env,
        (seqRun RunIns (plannedCalls L pkgHome verbose [m] s.env) s.log).1⟩,
        (seqRun RunIns (plannedCalls L pkgHome verbose [m] s.env) s.log).2) := by
  unfold buildPkgStep
  cases hB : m.Builder with
  | nil => simp [plannedCalls, hB, runLoop_eq_seqRun, envFor]
  | cons b bs => simp [plannedCalls, hB, runLoop_eq_seqRun, envFor]

theorem plannedCalls_cons (L : EnvLib Env) (pkgHome : String) (verbose : Bool)
    (m : PackageMeta) (rest : List PackageMeta) (env : Env) :
    plannedCalls L pkgHome verbose (m :: rest) env =
      plannedCalls L pkgHome verbose [m] env ++
        plannedCalls L pkgHome verbose rest (envFor L pkgHome m env) := by
  simp [plannedCalls]

theorem buildPkg_eq_seqRun (L : EnvLib Env) (RunIns : List RunEvent → RunCall → Option Err)
    (pkgHome : String) (verbose : Bool) (metas : List PackageMeta) (s : BuildState Env) :
    (buildPkg L RunIns pkgHome verbose metas s).1.log =
        (seqRun RunIns (plannedCalls L pkgHome verbose metas s.env) s.log).1 ∧
    (buildPkg L RunIns pkgHome verbose metas s).2 =
        (seqRun RunIns (plannedCalls L pkgHome verbose metas s.env) s.log).2 := by
  induction metas generalizing s with
  | nil => simp [buildPkg, plannedCalls, seqRun]
  | cons m rest ih =>
    rw [plannedCalls_cons, seqRun_append]
    simp only [buildPkg, buildPkgStep_eq]
    rcases hrun : seqRun RunIns (plannedCalls L pkgHome verbose [m] s.env) s.log with ⟨l1, r⟩
    cases r with
    | some e => simp
    | none => simpa using ih ⟨envFor L pkgHome m s.env, l1⟩

end build

section generic2

variable {C : Type}

theorem seqRun_props (f : List (Called C) → C → Option Err) (cs : List C) (log : List (Called C)) :
    ∃ new, (seqRun f cs log).1 = log ++ new ∧
      calls new <+: cs ∧
      (∀ pre ev post, new = pre ++ ev :: post → ev.result = f (log ++ pre) ev.call) ∧
      (∀ pre ev post e, new = pre ++ ev :: post → ev.result = some e →
        post = [] ∧ (seqRun f cs log).2 = some e) ∧
      ((seqRun f cs log).2 = none → calls new = cs ∧ allOk new) ∧
      (∀ e, (seqRun f cs log).2 = some e → ∃ pre c, new = pre ++ [⟨c, some e⟩] ∧ allOk pre) := by
  obtain ⟨new, h1, h2, h3⟩ := seqRun_char f cs log
  refine ⟨new, h1, ?_, ?_, ?_, ?_, ?_⟩
  · rcases h3 with ⟨_, h5, _⟩ | ⟨pre, c, e, post, h4, h5, _, _⟩
    · rw [h5]
    · refine ⟨post, ?_⟩
      rw [h4, h5]
      simp [calls]
  · intro pre ev post hsplit
    rw [hsplit] at h2
    exact Faithful_split f log pre post ev h2
  · intro pre2 ev post e2 hsplit hev
    rcases h3 with ⟨_, _, h6⟩ | ⟨pre, c, e, post2, _, h5, h6, h7⟩
    · have : ev.result = none := h6 ev (by rw [hsplit]; simp)
      rw [this] at hev
      cases hev
    · rw [h5] at hsplit
      obtain ⟨hp, he⟩ := failed_is_last pre pre2 post c e e2 ev h6 hsplit hev
      exact ⟨hp, by rw [h7, he]⟩
  · intro hnone
    rcases h3 with ⟨_, h5, h6⟩ | ⟨pre, c, e, post2, _, _, _, h7⟩
    · exact ⟨h5, h6⟩
    · rw [h7] at hnone
      cases hnone
  · intro e he
    rcases h3 with ⟨h4, _, _⟩ | ⟨pre, c, e2, post2, _, h5, h6, h7⟩
    · rw [h4] at he
      cases he
    · rw [h7] at he
      simp only [Option.some.injEq] at he
      subst he
      exact ⟨pre, c, h5, h6⟩

end generic2

section shell

variable {Env : Type}

theorem writeLoop_eq_seqRun (L : EnvLib Env) (Write : List WriteEvent → WriteCall → Option Err)
    (pkgHome : String) (m : PackageMeta) (env : Env) (l : List String)
    (out : List WriteEvent) :
    writeLoop L Write pkgHome m env l out =
      seqRun Write (l.map (fun ins =>
        WriteCall.ins pkgHome m.PackageName (L.ProcessEnv env ins))) out := by
  induction l generalizing out with
  | nil => rfl
  | cons ins rest ih =>
    simp only [writeLoop, List.map_cons, seqRun]
    split <;> simp_all

end shell

section steps

variable {Env : Type}

theorem buildPkgStep_selfBuild_irrelevant (L : EnvLib Env)
    (RunIns : List RunEvent → RunCall → Option Err)
    (pkgHome : String) (verbose : Bool) (m : PackageMeta) (s : BuildState Env)
    (hB : m.Builder ≠ []) (sb : List String) :
    buildPkgStep L RunIns pkgHome verbose { m with SelfBuild := sb } s =
      buildPkgStep L RunIns pkgHome verbose m s := by
  cases hm : m.Builder with
  | nil => exact absurd hm hB
  | cons b bs => simp [buildPkgStep, hm, runLoop_eq_seqRun]

theorem generateShellStep_selfBuild_irrelevant (L : EnvLib Env)
    (Write : List WriteEvent → WriteCall → Option Err)
    (pkgHome : String) (m : PackageMeta) (sh : ShellState Env)
    (hB : m.Builder ≠ []) (sb : List String) :
    generateShellStep L Write pkgHome { m with SelfBuild := sb } sh =
      generateShellStep L Write pkgHome m sh := by
  cases hm : m.Builder with
  | nil => exact absurd hm hB
  | cons b bs => simp [generateShellStep, hm, writeLoop_eq_seqRun]


theorem generateShellStep_eq_seqRun (L : EnvLib Env)
    (Write : List WriteEvent → WriteCall → Option Err)
    (pkgHome : String) (m : PackageMeta) (sh : ShellState Env)
    (hA : (L.AddPathEnv m.PackageName (L.AddVendorPathEnv pkgHome sh.env)).2 = none) :
    (generateShellStep L Write pkgHome m sh).1.out =
        (seqRun Write (plannedSection L pkgHome m sh.env) sh.out).1 ∧
    (generateShellStep L Write pkgHome m sh).2 =
        (seqRun Write (plannedSection L pkgHome m sh.env) sh.out).2 ∧
    ((generateShellStep L Write pkgHome m sh).2 = none →
        (generateShellStep L Write pkgHome m sh).1.env = envFor L pkgHome m sh.env) := by
  unfold generateShellStep
  cases hW : Write sh.out (.str (header m.PackageName)) with
  | some e =>
    simp only [header] at hW
    simp [hW, plannedSection, seqRun, header]
  | none =>
    rcases hA2 : L.AddPathEnv m.PackageName (L.AddVendorPathEnv pkgHome sh.env) with ⟨env2, r⟩
    rw [hA2] at hA
    simp only at hA
    subst hA
    have henv : envFor L pkgHome m sh.env = env2 := by simp [envFor, hA2]
    simp only [header] at hW
    cases hB : m.Builder with
    | nil => simp [hW, hA2, plannedSection, seqRun, hB, writeLoop_eq_seqRun, henv, header]
    | cons b bs =>
      simp [hW, hA2, plannedSection, seqRun, hB, writeLoop_eq_seqRun, henv, header]

end steps

section plans

variable {Env : Type} {C : Type}

theorem prefix_split2 {α : Type} (a b x : List α) (h : x <+: a ++ b) :
    ∃ xa xb, x = xa ++ xb ∧ xa <+: a ∧ xb <+: b ∧ (xb ≠ [] → xa = a) ∧
      (x = a ++ b → xa = a ∧ xb = b) := by
  induction a generalizing x with
  | nil =>
    exact ⟨[], x, rfl, List.prefix_refl _, by simpa using h, fun _ => rfl,
      fun hx => ⟨rfl, by simpa using hx⟩⟩
  | cons y t ih =>
    cases x with
    | nil =>
      exact ⟨[], [], rfl, List.nil_prefix, List.nil_prefix, fun hn => absurd rfl hn,
        fun hx => by simp at hx⟩
    | cons z x =>
      rw [List.cons_append, List.cons_prefix_cons] at h
      obtain ⟨hz, hx⟩ := h
      obtain ⟨xa, xb, h1, h2, h3, h4, h5⟩ := ih x hx
      subst hz
      refine ⟨z :: xa, xb, by simp [h1], by simp [List.cons_prefix_cons, h2], h3,
        fun hn => by rw [h4 hn], fun hxe => ?_⟩
      simp only [List.cons_append, List.cons.injEq, true_and] at hxe
      obtain ⟨h6, h7⟩ := h5 hxe
      exact ⟨by rw [h6], h7⟩

theorem calls_eq_nil (l : List (Called C)) : calls l = [] ↔ l = [] := by
  simp [calls]

/-- A history whose calls are an initial segment of three lists in a row splits
into the parts made for each of the three. -/
theorem prefix_split3_calls (new : List (Called C)) (a b c : List C)
    (h : calls new <+: a ++ b ++ c) :
    ∃ A B D, new = A ++ B ++ D ∧ calls A <+: a ∧ calls B <+: b ∧ calls D <+: c ∧
      (B ≠ [] → calls A = a) ∧ (D ≠ [] → calls A = a ∧ calls B = b) ∧
      (calls new = a ++ b ++ c → calls A = a ∧ calls B = b ∧ calls D = c) := by
  obtain ⟨xab, xc, h1, h2, h3, h4, h5⟩ := prefix_split2 (a ++ b) c (calls new) h
  obtain ⟨xa, xb, g1, g2, g3, g4, g5⟩ := prefix_split2 a b xab h2
  obtain ⟨AB, D, e1, e2, e3⟩ := List.map_eq_append_iff.mp h1
  obtain ⟨A, B, f1, f2, f3⟩ := List.map_eq_append_iff.mp (e2.trans g1)
  have hA : calls A = xa := f2
  have hB : calls B = xb := f3
  have hD : calls D = xc := e3
  refine ⟨A, B, D, by rw [e1, f1], by rw [hA]; exact g2, by rw [hB]; exact g3,
    by rw [hD]; exact h3, ?_, ?_, ?_⟩
  · intro hn
    rw [hA]
    exact g4 (by rw [← hB]; exact fun h0 => hn ((calls_eq_nil B).mp h0))
  · intro hn
    have hxab := h4 (by rw [← hD]; exact fun h0 => hn ((calls_eq_nil D).mp h0))
    obtain ⟨h6, h7⟩ := g5 hxab
    exact ⟨by rw [hA, h6], by rw [hB, h7]⟩
  · intro hall
    obtain ⟨h6, h7⟩ := h5 hall
    obtain ⟨h8, h9⟩ := g5 h6
    exact ⟨by rw [hA, h8], by rw [hB, h9], by rw [hD, h7]⟩

theorem plannedCalls_append (L : EnvLib Env) (pkgHome : String) (verbose : Bool)
    (a b : List PackageMeta) (env : Env) :
    plannedCalls L pkgHome verbose (a ++ b) env =
      plannedCalls L pkgHome verbose a env ++
        plannedCalls L pkgHome verbose b (envAfter L pkgHome a env) := by
  induction a generalizing env with
  | nil => rfl
  | cons m rest ih => simp [plannedCalls, envAfter, ih]

theorem plannedSections_append (L : EnvLib Env) (pkgHome : String)
    (a b : List PackageMeta) (env : Env) :
    plannedSections L pkgHome (a ++ b) env =
      plannedSections L pkgHome a env ++
        plannedSections L pkgHome b (envAfter L pkgHome a env) := by
  induction a generalizing env with
  | nil => rfl
  | cons m rest ih => simp [plannedSections, envAfter, ih]

theorem chosen_eq (m : PackageMeta) (chosen : List String)
    (hc : (m.Builder ≠ [] ∧ chosen = m.Builder) ∨ (m.Builder = [] ∧ chosen = m.SelfBuild)) :
    (match m.Builder with
      | [] => m.SelfBuild
      | b :: bs => b :: bs) = chosen := by
  rcases hc with ⟨h1, h2⟩ | ⟨h1, h2⟩
  · cases hm : m.Builder with
    | nil => exact absurd hm h1
    | cons b bs => rw [h2, hm]
  · rw [h1, h2]

theorem buildPkg_calls (L : EnvLib Env) (RunIns : List RunEvent → RunCall → Option Err)
    (pkgHome : String) (verbose : Bool) (metas : List PackageMeta) (s : BuildState Env) :
    ∃ new, (buildPkg L RunIns pkgHome verbose metas s).1.log = s.log ++ new ∧
      calls new <+: plannedCalls L pkgHome verbose metas s.env ∧
      ((buildPkg L RunIns pkgHome verbose metas s).2 = none →
        calls new = plannedCalls L pkgHome verbose metas s.env) := by
  obtain ⟨h1, h2⟩ := buildPkg_eq_seqRun L RunIns pkgHome verbose metas s
  rw [h1, h2]
  obtain ⟨new, g1, g2, -, -, g5, -⟩ :=
    seqRun_props RunIns (plannedCalls L pkgHome verbose metas s.env) s.log
  exact ⟨new, g1, g2, fun h => (g5 h).1⟩

theorem buildPkg_selfBuild_irrelevant (L : EnvLib Env)
    (RunIns : List RunEvent → RunCall → Option Err)
    (pkgHome : String) (verbose : Bool) (pre post : List PackageMeta) (m : PackageMeta)
    (s : BuildState Env) (hB : m.Builder ≠ []) (sb : List String) :
    buildPkg L RunIns pkgHome verbose (pre ++ { m with SelfBuild := sb } :: post) s =
      buildPkg L RunIns pkgHome verbose (pre ++ m :: post) s := by
  induction pre generalizing s with
  | nil =>
    simp only [List.nil_append, buildPkg,
      buildPkgStep_selfBuild_irrelevant L RunIns pkgHome verbose m s hB sb]
  | cons p rest ih =>
    simp only [List.cons_append, buildPkg]
    rcases buildPkgStep L RunIns pkgHome verbose p s with ⟨s1, r⟩
    cases r with
    | some e => rfl
    | none => exact ih s1

theorem generateShellLoop_selfBuild_irrelevant (L : EnvLib Env)
    (Write : List WriteEvent → WriteCall → Option Err)
    (pkgHome : String) (pre post : List PackageMeta) (m : PackageMeta)
    (s : ShellState Env) (hB : m.Builder ≠ []) (sb : List String) :
    generateShellLoop L Write pkgHome (pre ++ { m with SelfBuild := sb } :: post) s =
      generateShellLoop L Write pkgHome (pre ++ m :: post) s := by
  induction pre generalizing s with
  | nil =>
    simp only [List.nil_append, generateShellLoop,
      generateShellStep_selfBuild_irrelevant L Write pkgHome m s hB sb]
  | cons p rest ih =>
    simp only [List.cons_append, generateShellLoop]
    rcases generateShellStep L Write pkgHome p s with ⟨s1, r⟩
    cases r with
    | some e => rfl
    | none => exact ih s1

theorem generateShell_selfBuild_irrelevant (L : EnvLib Env)
    (Write : List WriteEvent → WriteCall → Option Err)
    (pkgHome : String) (pre post : List PackageMeta) (m : PackageMeta)
    (s : ShellState Env) (hB : m.Builder ≠ []) (sb : List String) :
    generateShell L Write (pre ++ { m with SelfBuild := sb } :: post) pkgHome s =
      generateShell L Write (pre ++ m :: post) pkgHome s := by
  unfold generateShell
  simp only [generateShellLoop_selfBuild_irrelevant L Write pkgHome pre post m _ hB sb]

end plans

section shell_plan

variable {Env : Type}

theorem generateShellStep_failing_env (L : EnvLib Env)
    (Write : List WriteEvent → WriteCall → Option Err)
    (pkgHome : String) (m : PackageMeta) (sh : ShellState Env) (e : Err)
    (hA : (L.AddPathEnv m.PackageName (L.AddVendorPathEnv pkgHome sh.env)).2 = some e) :
    (generateShellStep L Write pkgHome m sh).1.out =
        (seqRun Write [WriteCall.str ("\n## pacakge " ++ m.PackageName ++ "\n")] sh.out).1 ∧
    (generateShellStep L Write pkgHome m sh).2 =
        match (seqRun Write [WriteCall.str ("\n## pacakge " ++ m.PackageName ++ "\n")]
          sh.out).2 with
        | some e2 => some e2
        | none => some e := by
  unfold generateShellStep
  cases hW : Write sh.out (.str (header m.PackageName)) with
  | some e2 =>
    simp only [header] at hW
    simp [hW, seqRun, header]
  | none =>
    rcases hA2 : L.AddPathEnv m.PackageName (L.AddVendorPathEnv pkgHome sh.env) with ⟨env2, r⟩
    rw [hA2] at hA
    simp only at hA
    subst hA
    simp only [header] at hW
    simp [hW, hA2, seqRun, header]

theorem generateShellLoop_plan (L : EnvLib Env)
    (Write : List WriteEvent → WriteCall → Option Err)
    (pkgHome : String) (metas : List PackageMeta) (s : ShellState Env) :
    (generateShellLoop L Write pkgHome metas s).1.out =
        (seqRun Write (shellPlan L pkgHome metas s.env).1 s.out).1 ∧
    (generateShellLoop L Write pkgHome metas s).2 =
        match (seqRun Write (shellPlan L pkgHome metas s.env).1 s.out).2 with
        | some e => some e
        | none => (shellPlan L pkgHome metas s.env).2 := by
  induction metas generalizing s with
  | nil => simp [generateShellLoop, shellPlan, seqRun]
  | cons m rest ih =>
    cases hA : (L.AddPathEnv m.PackageName (L.AddVendorPathEnv pkgHome s.env)).2 with
    | some e =>
      obtain ⟨h1, h2⟩ := generateShellStep_failing_env L Write pkgHome m s e hA
      simp only [shellPlan, hA, generateShellLoop]
      rcases hstep : generateShellStep L Write pkgHome m s with ⟨s1, r⟩
      rw [hstep] at h1 h2
      simp only at h1 h2
      cases hr : (seqRun Write [WriteCall.str ("\n## pacakge " ++ m.PackageName ++ "\n")]
          s.out).2 with
      | some e2 =>
        rw [hr] at h2
        simp only at h2
        subst h2
        simp [h1]
      | none =>
        rw [hr] at h2
        simp only at h2
        subst h2
        simp [h1]
    | none =>
      obtain ⟨h1, h2, h3⟩ := generateShellStep_eq_seqRun L Write pkgHome m s hA
      simp only [shellPlan, hA, seqRun_append, generateShellLoop]
      rcases hstep : generateShellStep L Write pkgHome m s with ⟨s1, r⟩
      rw [hstep] at h1 h2 h3
      rcases hrun : seqRun Write (plannedSection L pkgHome m s.env) s.out with ⟨l1, r1⟩
      rw [hrun] at h1 h2
      simp only at h1 h2 h3
      subst h2
      cases r with
      | some e => simp [h1]
      | none =>
        have hi := ih s1
        rw [h3 rfl, h1] at hi
        simpa using hi

theorem generateShell_plan (L : EnvLib Env)
    (Write : List WriteEvent → WriteCall → Option Err)
    (pkgHome : String) (metas : List PackageMeta) (s : ShellState Env) :
    (generateShell L Write metas pkgHome s).1.out =
        (seqRun Write (WriteCall.str "#!/bin/sh\n" :: (shellPlan L pkgHome metas s.env).1)
          s.out).1 ∧
    (generateShell L Write metas pkgHome s).2 =
        match (seqRun Write (WriteCall.str "#!/bin/sh\n" :: (shellPlan L pkgHome metas s.env).1)
          s.out).2 with
        | some e => some e
        | none => (shellPlan L pkgHome metas s.env).2 := by
  unfold generateShell
  cases hW : Write s.out (.str "#!/bin/sh\n") with
  | some e => simp [hW, seqRun]
  | none =>
    have := generateShellLoop_plan L Write pkgHome metas
      ⟨s.env, s.out ++ [⟨.str "#!/bin/sh\n", none⟩]⟩
    simpa [hW, seqRun] using this

theorem shellPlan_prefix (L : EnvLib Env) (pkgHome : String) (metas : List PackageMeta)
    (env : Env) :
    (shellPlan L pkgHome metas env).1 <+: plannedSections L pkgHome metas env ∧
    ((shellPlan L pkgHome metas env).2 = none →
      (shellPlan L pkgHome metas env).1 = plannedSections L pkgHome metas env) := by
  induction metas generalizing env with
  | nil => simp [shellPlan, plannedSections]
  | cons m rest ih =>
    cases hA : (L.AddPathEnv m.PackageName (L.AddVendorPathEnv pkgHome env)).2 with
    | some e =>
      simp only [shellPlan, hA, plannedSections, plannedSection]
      refine ⟨?_, fun h => by cases h⟩
      simp [List.cons_prefix_cons]
    | none =>
      simp only [shellPlan, hA, plannedSections]
      obtain ⟨h1, h2⟩ := ih (envFor L pkgHome m env)
      exact ⟨(List.prefix_append_right_inj _).mpr h1, fun h => by rw [h2 h]⟩

theorem shellPlan_ok (L : EnvLib Env) (pkgHome : String) (metas : List PackageMeta)
    (env : Env) (h : envOk L pkgHome metas env) :
    shellPlan L pkgHome metas env = (plannedSections L pkgHome metas env, none) := by
  induction metas generalizing env with
  | nil => rfl
  | cons m rest ih =>
    obtain ⟨h1, h2⟩ := h
    simp only [shellPlan, h1, plannedSections, ih _ h2]

theorem shellPlan_err (L : EnvLib Env) (pkgHome : String) (pre post : List PackageMeta)
    (m : PackageMeta) (env : Env) (e : Err) (h : envOk L pkgHome pre env)
    (hA : (L.AddPathEnv m.PackageName
      (L.AddVendorPathEnv pkgHome (envAfter L pkgHome pre env))).2 = some e) :
    shellPlan L pkgHome (pre ++ m :: post) env =
      (plannedSections L pkgHome pre env ++
        [WriteCall.str ("\n## pacakge " ++ m.PackageName ++ "\n")], some e) := by
  induction pre generalizing env with
  | nil =>
    simp only [envAfter] at hA
    simp [shellPlan, hA, plannedSections]
  | cons p rest ih =>
    obtain ⟨h1, h2⟩ := h
    simp only [envAfter] at hA
    have hi := ih _ h2 hA
    show shellPlan L pkgHome (p :: (rest ++ m :: post)) env = _
    simp only [shellPlan, h1, plannedSections, hi, List.append_assoc]

theorem generateShell_calls (L : EnvLib Env)
    (Write : List WriteEvent → WriteCall → Option Err)
    (pkgHome : String) (metas : List PackageMeta) (s : ShellState Env) :
    ∃ new, (generateShell L Write metas pkgHome s).1.out = s.out ++ new ∧
      calls new <+: plannedScript L pkgHome metas s.env ∧
      ((generateShell L Write metas pkgHome s).2 = none →
        calls new = plannedScript L pkgHome metas s.env) ∧
      (allOk new →
        calls new = WriteCall.str "#!/bin/sh\n" :: (shellPlan L pkgHome metas s.env).1 ∧
        (generateShell L Write metas pkgHome s).2 = (shellPlan L pkgHome metas s.env).2) := by
  obtain ⟨h1, h2⟩ := generateShell_plan L Write pkgHome metas s
  obtain ⟨new, g1, g2, -, -, g5, g6⟩ := seqRun_props Write
    (WriteCall.str "#!/bin/sh\n" :: (shellPlan L pkgHome metas s.env).1) s.out
  obtain ⟨p1, p2⟩ := shellPlan_prefix L pkgHome metas s.env
  rw [h1, h2]
  refine ⟨new, g1, ?_, ?_, ?_⟩
  · exact g2.trans (by
      unfold plannedScript
      simpa [List.cons_prefix_cons] using p1)
  · intro hnone
    cases hr : (seqRun Write (WriteCall.str "#!/bin/sh\n" :: (shellPlan L pkgHome metas s.env).1)
        s.out).2 with
    | some e => rw [hr] at hnone; cases hnone
    | none =>
      rw [hr] at hnone
      simp only at hnone
      rw [(g5 hr).1, p2 hnone]
      rfl
  · intro hok
    cases hr : (seqRun Write (WriteCall.str "#!/bin/sh\n" :: (shellPlan L pkgHome metas s.env).1)
        s.out).2 with
    | some e =>
      obtain ⟨pre, c, hsplit, -⟩ := g6 e hr
      have : (⟨c, some e⟩ : WriteEvent).result = none := hok _ (by rw [hsplit]; simp)
      cases this
    | none => exact ⟨(g5 hr).1, rfl⟩

end shell_plan

section claims_build

variable {Env : Type}

theorem plannedCalls_middle (L : EnvLib Env) (pkgHome : String) (verbose : Bool)
    (pre post : List PackageMeta) (m : PackageMeta) (env : Env) (chosen : List String)
    (hc : (m.Builder ≠ [] ∧ chosen = m.Builder) ∨ (m.Builder = [] ∧ chosen = m.SelfBuild)) :
    plannedCalls L pkgHome verbose (pre ++ m :: post) env =
      plannedCalls L pkgHome verbose pre env ++
      chosen.map (fun ins => (⟨pkgHome, m.PackageName, m.SrcPath,
        L.ProcessEnv (envFor L pkgHome m (envAfter L pkgHome pre env)) ins, verbose⟩ : RunCall)) ++
      plannedCalls L pkgHome verbose post (envFor L pkgHome m (envAfter L pkgHome pre env)) := by
  rw [plannedCalls_append]
  simp only [plannedCalls, chosen_eq m chosen hc, List.append_assoc]

theorem plannedScript_middle (L : EnvLib Env) (pkgHome : String)
    (pre post : List PackageMeta) (m : PackageMeta) (env : Env) (chosen : List String)
    (hc : (m.Builder ≠ [] ∧ chosen = m.Builder) ∨ (m.Builder = [] ∧ chosen = m.SelfBuild)) :
    plannedScript L pkgHome (pre ++ m :: post) env =
      (plannedScript L pkgHome pre env ++
        [WriteCall.str ("\n## pacakge " ++ m.PackageName ++ "\n")]) ++
      chosen.map (fun ins => WriteCall.ins pkgHome m.PackageName
        (L.ProcessEnv (envFor L pkgHome m (envAfter L pkgHome pre env)) ins)) ++
      plannedSections L pkgHome post (envFor L pkgHome m (envAfter L pkgHome pre env)) := by
  unfold plannedScript
  rw [plannedSections_append]
  simp only [plannedSections, plannedSection, chosen_eq m chosen hc, List.append_assoc,
    List.cons_append, List.nil_append]

/-- C1 (as amended): for a package `m` of the list given to buildPkg or to
generateShell, with `chosen` its outer build when that is non-empty and its
self build otherwise: what the function does splits into the part made for
the packages before `m`, the part `B` made for `m` and the part made for the
packages after it; the calls of `B` hand over the substituted instructions
of `chosen`, in order from the first one; they are all of them when the
function returns nil or goes on to a later package, and `B` is empty unless
everything planned before it was done; and with a non-empty outer build,
replacing the self build by any list changes nothing of what either function
does. -/
theorem C1_instructions_come_from_the_chosen_list (L : EnvLib Env)
    (RunIns : List RunEvent → RunCall → Option Err)
    (Write : List WriteEvent → WriteCall → Option Err)
    (pkgHome : String) (verbose : Bool) (pre : List PackageMeta) (m : PackageMeta)
    (post : List PackageMeta) (s : BuildState Env) (sh : ShellState Env)
    (chosen : List String)
    (hc : (m.Builder ≠ [] ∧ chosen = m.Builder) ∨ (m.Builder = [] ∧ chosen = m.SelfBuild)) :
    (∃ A B D,
      (buildPkg L RunIns pkgHome verbose (pre ++ m :: post) s).1.log = s.log ++ (A ++ B ++ D) ∧
      calls A <+: plannedCalls L pkgHome verbose pre s.env ∧
      calls B <+: chosen.map (fun ins => (⟨pkgHome, m.PackageName, m.SrcPath,
        L.ProcessEnv (envFor L pkgHome m (envAfter L pkgHome pre s.env)) ins, verbose⟩ :
          RunCall)) ∧
      calls D <+: plannedCalls L pkgHome verbose post
        (envFor L pkgHome m (envAfter L pkgHome pre s.env)) ∧
      (B ≠ [] → calls A = plannedCalls L pkgHome verbose pre s.env) ∧
      (D ≠ [] → calls A = plannedCalls L pkgHome verbose pre s.env ∧
        calls B = chosen.map (fun ins => (⟨pkgHome, m.PackageName, m.SrcPath,
          L.ProcessEnv (envFor L pkgHome m (envAfter L pkgHome pre s.env)) ins, verbose⟩ :
            RunCall))) ∧
      ((buildPkg L RunIns pkgHome verbose (pre ++ m :: post) s).2 = none →
        calls A = plannedCalls L pkgHome verbose pre s.env ∧
        calls B = chosen.map (fun ins => (⟨pkgHome, m.PackageName, m.SrcPath,
          L.ProcessEnv (envFor L pkgHome m (envAfter L pkgHome pre s.env)) ins, verbose⟩ :
            RunCall)) ∧
        calls D = plannedCalls L pkgHome verbose post
          (envFor L pkgHome m (envAfter L pkgHome pre s.env)))) ∧
    (∃ A B D,
      (generateShell L Write (pre ++ m :: post) pkgHome sh).1.out = sh.out ++ (A ++ B ++ D) ∧
      calls A <+: plannedScript L pkgHome pre sh.env ++
        [WriteCall.str ("\n## pacakge " ++ m.PackageName ++ "\n")] ∧
      calls B <+: chosen.map (fun ins => WriteCall.ins pkgHome m.PackageName
        (L.ProcessEnv (envFor L pkgHome m (envAfter L pkgHome pre sh.env)) ins)) ∧
      calls D <+: plannedSections L pkgHome post
        (envFor L pkgHome m (envAfter L pkgHome pre sh.env)) ∧
      (B ≠ [] → calls A = plannedScript L pkgHome pre sh.env ++
        [WriteCall.str ("\n## pacakge " ++ m.PackageName ++ "\n")]) ∧
      (D ≠ [] → calls A = plannedScript L pkgHome pre sh.env ++
          [WriteCall.str ("\n## pacakge " ++ m.PackageName ++ "\n")] ∧
        calls B = chosen.map (fun ins => WriteCall.ins pkgHome m.PackageName
          (L.ProcessEnv (envFor L pkgHome m (envAfter L pkgHome pre sh.env)) ins))) ∧
      ((generateShell L Write (pre ++ m :: post) pkgHome sh).2 = none →
        calls A = plannedScript L pkgHome pre sh.env ++
          [WriteCall.str ("\n## pacakge " ++ m.PackageName ++ "\n")] ∧
        calls B = chosen.map (fun ins => WriteCall.ins pkgHome m.PackageName
          (L.ProcessEnv (envFor L pkgHome m (envAfter L pkgHome pre sh.env)) ins)) ∧
        calls D = plannedSections L pkgHome post
          (envFor L pkgHome m (envAfter L pkgHome pre sh.env)))) ∧
    (m.Builder ≠ [] → ∀ sb,
      buildPkg L RunIns pkgHome verbose (pre ++ { m with SelfBuild := sb } :: post) s =
        buildPkg L RunIns pkgHome verbose (pre ++ m :: post) s ∧
      generateShell L Write (pre ++ { m with SelfBuild := sb } :: post) pkgHome sh =
        generateShell L Write (pre ++ m :: post) pkgHome sh) := by
  refine ⟨?_, ?_, ?_⟩
  · obtain ⟨new, h1, h2, h3⟩ := buildPkg_calls L RunIns pkgHome verbose (pre ++ m :: post) s
    rw [plannedCalls_middle L pkgHome verbose pre post m s.env chosen hc] at h2 h3
    obtain ⟨A, B, D, e1, e2, e3, e4, e5, e6, e7⟩ := prefix_split3_calls new _ _ _ h2
    exact ⟨A, B, D, by rw [h1, e1], e2, e3, e4, e5, e6, fun hn => e7 (h3 hn)⟩
  · obtain ⟨new, h1, h2, h3, -⟩ := generateShell_calls L Write pkgHome (pre ++ m :: post) sh
    rw [plannedScript_middle L pkgHome pre post m sh.env chosen hc] at h2 h3
    obtain ⟨A, B, D, e1, e2, e3, e4, e5, e6, e7⟩ := prefix_split3_calls new _ _ _ h2
    exact ⟨A, B, D, by rw [h1, e1], e2, e3, e4, e5, e6, fun hn => e7 (h3 hn)⟩
  · intro hB sb
    exact ⟨buildPkg_selfBuild_irrelevant L RunIns pkgHome verbose pre post m s hB sb,
      generateShell_selfBuild_irrelevant L Write pkgHome pre post m sh hB sb⟩

/-- C1 (as amended) at a package with both lists, between two other packages,
with a `RunIns` that never fails: buildPkg returns nil and the part made for
the package hands over its substituted outer build. -/
theorem C1_instructions_come_from_the_chosen_list_witness :
    ((demoMeta.Builder ≠ [] ∧ ["cmake .", "make"] = demoMeta.Builder) ∨
      (demoMeta.Builder = [] ∧ ["cmake .", "make"] = demoMeta.SelfBuild)) ∧
    ∃ A B D,
      (buildPkg demoLib okRun "/home" false ([demoMeta3] ++ demoMeta :: [emptyMeta])
        ⟨"", []⟩).1.log = [] ++ (A ++ B ++ D) ∧
      insHanded A = ["one @/home/libbar", "two @/home/libbar", "three @/home/libbar"] ∧
      insHanded B = ["cmake . @/home/libfoo", "make @/home/libfoo"] ∧
      insHanded D = [] := by
  have hc : (demoMeta.Builder ≠ [] ∧ ["cmake .", "make"] = demoMeta.Builder) ∨
      (demoMeta.Builder = [] ∧ ["cmake .", "make"] = demoMeta.SelfBuild) :=
    Or.inl ⟨by decide, rfl⟩
  obtain ⟨⟨A, B, D, h1, -, -, -, -, -, h7⟩, -, -⟩ :=
    C1_instructions_come_from_the_chosen_list demoLib okRun okWrite "/home" false
      [demoMeta3] demoMeta [emptyMeta] ⟨"", []⟩ ⟨"", []⟩ ["cmake .", "make"] hc
  obtain ⟨hA, hB, hD⟩ := h7 (by rfl)
  have hins : ∀ l : List RunEvent, insHanded l = (calls l).map (fun c => c.ins) := by
    intro l
    simp [insHanded, calls, List.map_map, Function.comp_def]
  refine ⟨hc, A, B, D, h1, ?_, ?_, ?_⟩
  · rw [hins, hA]; rfl
  · rw [hins, hB]; rfl
  · rw [hins, hD]; rfl

/-- C1 as stated fails: the package has a non-empty outer build of two
instructions; `RunIns` fails on the first, and buildPkg hands over that one
only; `AddPathEnv` fails for a package with a non-empty outer build, every
write succeeding, and generateShell hands no instruction to `WriteIns`. -/
theorem C1_abort_hands_over_part_of_the_list :
    demoMeta.Builder.map (demoLib.ProcessEnv (envFor demoLib "/home" demoMeta "")) =
      ["cmake . @/home/libfoo", "make @/home/libfoo"] ∧
    insHanded (buildPkg demoLib (failRun "cmake . @/home/libfoo") "/home" false [demoMeta]
      ⟨"", []⟩).1.log = ["cmake . @/home/libfoo"] ∧
    nulBuilderMeta.Builder = ["make"] ∧
    insWritten (generateShell demoLib okWrite [nulBuilderMeta] "/home" ⟨"", []⟩).1.out = [] ∧
    allOk (generateShell demoLib okWrite [nulBuilderMeta] "/home" ⟨"", []⟩).1.out := by
  refine ⟨by decide, by decide, by decide, by decide, ?_⟩
  unfold allOk
  decide

/-- C2: buildPkg runs the chosen instructions in sequence, packages in list order
and instructions in list order within a package; the recorded outcomes are
those of RunIns; a call of RunIns that fails is the last call made and its
error is the error buildPkg returns; buildPkg returns nil only when every
planned instruction was run and none failed; an error returned is the error
of the last call made. -/
theorem C2_buildPkg_aborts_at_first_failure (L : EnvLib Env)
    (RunIns : List RunEvent → RunCall → Option Err)
    (pkgHome : String) (verbose : Bool) (metas : List PackageMeta) (s : BuildState Env) :
    ∃ new, (buildPkg L RunIns pkgHome verbose metas s).1.log = s.log ++ new ∧
      calls new <+: plannedCalls L pkgHome verbose metas s.env ∧
      (∀ pre ev post, new = pre ++ ev :: post → ev.result = RunIns (s.log ++ pre) ev.call) ∧
      (∀ pre ev post e, new = pre ++ ev :: post → ev.result = some e →
        post = [] ∧ (buildPkg L RunIns pkgHome verbose metas s).2 = some e) ∧
      ((buildPkg L RunIns pkgHome verbose metas s).2 = none →
        calls new = plannedCalls L pkgHome verbose metas s.env ∧ allOk new) ∧
      (∀ e, (buildPkg L RunIns pkgHome verbose metas s).2 = some e →
        ∃ pre c, new = pre ++ [⟨c, some e⟩] ∧ allOk pre) := by
  obtain ⟨h1, h2⟩ := buildPkg_eq_seqRun L RunIns pkgHome verbose metas s
  rw [h1, h2]
  exact seqRun_props RunIns (plannedCalls L pkgHome verbose metas s.env) s.log

/-- C2 on three instructions of which the second fails: the third is not run and
the error of the second is returned. -/
theorem C2_buildPkg_aborts_at_first_failure_witness :
    insHanded (buildPkg demoLib (failRun "two @/home/libbar") "/home" false
        [demoMeta3, demoMeta] ⟨"", []⟩).1.log = ["one @/home/libbar", "two @/home/libbar"] ∧
    (buildPkg demoLib (failRun "two @/home/libbar") "/home" false
        [demoMeta3, demoMeta] ⟨"", []⟩).2 = some "exit status 1" := by
  obtain ⟨new, h1, -, -, h4, -, -⟩ :=
    C2_buildPkg_aborts_at_first_failure demoLib (failRun "two @/home/libbar") "/home" false
      [demoMeta3, demoMeta] ⟨"", []⟩
  refine ⟨by rfl, ?_⟩
  have hnew : new = [⟨⟨"/home", "libbar", "/home/vendor/src/libbar", "one @/home/libbar", false⟩,
        none⟩] ++ ⟨⟨"/home", "libbar", "/home/vendor/src/libbar", "two @/home/libbar", false⟩,
        some "exit status 1"⟩ :: [] := by
    simp only [List.nil_append] at h1
    rw [← h1]
    rfl
  exact (h4 _ _ _ "exit status 1" hnew rfl).2

/-- C9 (as amended): there is a list `new` of writer operations made by
generateShell and, when each of them succeeded: if `AddPathEnv` returns no
error for any package of the list (each call taken in the environment in
which it is made), generateShell returns nil and the operations are the
shebang line followed, for each package in list order, by one header and one
WriteIns per chosen, substituted instruction; if `AddPathEnv` returns an
error for a package and for none before it, generateShell returns that error
and the operations are the shebang line, the sections of the packages before
it and the header of that package. -/
theorem C9_generateShell_writes_the_script (L : EnvLib Env)
    (Write : List WriteEvent → WriteCall → Option Err)
    (metas : List PackageMeta) (pkgHome : String) (s : ShellState Env) :
    ∃ new, (generateShell L Write metas pkgHome s).1.out = s.out ++ new ∧
      (allOk new →
        (envOk L pkgHome metas s.env →
          (generateShell L Write metas pkgHome s).2 = none ∧
          calls new = plannedScript L pkgHome metas s.env) ∧
        (∀ pre m post e, metas = pre ++ m :: post → envOk L pkgHome pre s.env →
          (L.AddPathEnv m.PackageName
            (L.AddVendorPathEnv pkgHome (envAfter L pkgHome pre s.env))).2 = some e →
          (generateShell L Write metas pkgHome s).2 = some e ∧
          calls new = plannedScript L pkgHome pre s.env ++
            [WriteCall.str ("\n## pacakge " ++ m.PackageName ++ "\n")])) := by
  obtain ⟨new, h1, -, -, h4⟩ := generateShell_calls L Write pkgHome metas s
  refine ⟨new, h1, fun hok => ⟨?_, ?_⟩⟩
  · intro henv
    obtain ⟨g1, g2⟩ := h4 hok
    rw [shellPlan_ok L pkgHome metas s.env henv] at g1 g2
    exact ⟨g2, g1⟩
  · intro pre m post e hsplit henv hA
    obtain ⟨g1, g2⟩ := h4 hok
    rw [hsplit, shellPlan_err L pkgHome pre post m s.env e henv hA] at g1 g2
    rw [hsplit]
    exact ⟨g2, g1⟩

/-- C9 (as amended) on a package with instructions followed by one without: the
script is the shebang line, a header and two instructions, a second header. -/
theorem C9_generateShell_writes_the_script_witness :
    envOk demoLib "/home" [demoMeta, emptyMeta] "" ∧
    (generateShell demoLib okWrite [demoMeta, emptyMeta] "/home" ⟨"", []⟩).2 = none ∧
    calls (generateShell demoLib okWrite [demoMeta, emptyMeta] "/home" ⟨"", []⟩).1.out =
      [.str "#!/bin/sh\n", .str "\n## pacakge libfoo\n",
        .ins "/home" "libfoo" "cmake . @/home/libfoo", .ins "/home" "libfoo" "make @/home/libfoo",
        .str "\n## pacakge empty\n"] := by
  have hEnv : envOk demoLib "/home" [demoMeta, emptyMeta] "" := ⟨rfl, rfl, trivial⟩
  obtain ⟨new, h1, h2⟩ :=
    C9_generateShell_writes_the_script demoLib okWrite [demoMeta, emptyMeta] "/home" ⟨"", []⟩
  simp only [List.nil_append] at h1
  have hok : allOk new := by
    rw [← h1]
    unfold allOk
    decide
  obtain ⟨h3, h4⟩ := (h2 hok).1 hEnv
  refine ⟨hEnv, h3, ?_⟩
  rw [h1, h4]
  rfl

/-- C9 as stated fails: every write succeeds, yet generateShell returns the error
of `AddPathEnv` for a package whose name has a NUL character. -/
theorem C9_generateShell_aborts_on_AddPathEnv_error :
    (∀ out c, okWrite out c = none) ∧
    allOk (generateShell demoLib okWrite [nulMeta] "/home" ⟨"", []⟩).1.out ∧
    (generateShell demoLib okWrite [nulMeta] "/home" ⟨"", []⟩).2 =
      some "setenv: invalid argument" ∧
    calls (generateShell demoLib okWrite [nulMeta] "/home" ⟨"", []⟩).1.out =
      [.str "#!/bin/sh\n", .str ("\n## pacakge " ++ nulMeta.PackageName ++ "\n")] := by
  refine ⟨fun _ _ => rfl, ?_, by rfl, by decide⟩
  unfold allOk
  decide

end claims_build

section claims_git

variable {URL : Type}

theorem authLoop_no_match (G : GitLib URL) (gitUrl : URL) (auths : List Auth) (repoUrl : String)
    (h : ∀ a ∈ auths, a.Host ≠ G.Host gitUrl) : authLoop G gitUrl auths repoUrl = repoUrl := by
  induction auths with
  | nil => rfl
  | cons a rest ih =>
    have ha : a.Host ≠ G.Host gitUrl := h a (List.mem_cons_self _ _)
    simp only [authLoop, ha, if_false]
    exact ih (fun b hb => h b (List.mem_cons_of_mem _ hb))

theorem authLoop_first_match (G : GitLib URL) (gitUrl : URL) (pre post : List Auth) (a : Auth)
    (repoUrl : String) (hpre : ∀ b ∈ pre, b.Host ≠ G.Host gitUrl) (ha : a.Host = G.Host gitUrl) :
    authLoop G gitUrl (pre ++ a :: post) repoUrl =
      G.UrlString (G.SetUser gitUrl a.Username a.Token) := by
  induction pre with
  | nil => simp [authLoop, ha]
  | cons b rest ih =>
    have hb : b.Host ≠ G.Host gitUrl := hpre b (List.mem_cons_self _ _)
    simp only [List.cons_append, authLoop, hb, if_false]
    exact ih (fun c hc => hpre c (List.mem_cons_of_mem _ hc))

/-- C8: when the directory is made and `gitPath` parses to `u`, gitSrc makes one
clone; its URL is `gitPath` itself when no entry of `auths` has the host of
`u`, and `u` with the user-info of the first entry that has it otherwise,
whatever follows that entry. -/
theorem C8_clone_url_carries_first_matching_credential (G : GitLib URL) (auths : List Auth)
    (repositoryPrefix packageName gitPath hash branch tag : String) (log : List GitEvent)
    (u : URL) (hParse : G.Parse gitPath = .ok u)
    (hMk : G.Exec log (.MkdirAll repositoryPrefix) = none) :
    ∃ new url ref,
      (gitSrc G auths repositoryPrefix packageName gitPath hash branch tag log).1 = log ++ new ∧
      cloneCalls new = [(url, ref)] ∧
      ((∀ a ∈ auths, a.Host ≠ G.Host u) → url = gitPath) ∧
      (∀ pre a post, auths = pre ++ a :: post → (∀ b ∈ pre, b.Host ≠ G.Host u) →
        a.Host = G.Host u → url = G.UrlString (G.SetUser u a.Username a.Token)) := by
  refine ⟨(gitSrc G auths repositoryPrefix packageName gitPath hash branch tag log).1.drop
    log.length, authLoop G u auths gitPath,
    (if branch ≠ "" then "refs/heads/" ++ branch
      else if tag ≠ "" then "refs/tags/" ++ tag else ""), ?_, ?_, ?_, ?_⟩
  · unfold gitSrc removeGitDir
    simp only [hMk, hParse]
    split <;> (try split) <;> (try split) <;> (try split) <;> (try split) <;>
      simp [List.append_assoc]
  · unfold gitSrc removeGitDir
    simp only [hMk, hParse]
    split <;> (try split) <;> (try split) <;> (try split) <;> (try split) <;>
      simp [List.append_assoc, cloneCalls]
  · exact authLoop_no_match G u auths gitPath
  · intro pre a post hsplit hpre ha
    rw [hsplit]
    exact authLoop_first_match G u pre post a gitPath hpre ha

/-- C8 on a credential list whose second and third entries have the host of the
repository: the clone URL carries the user-info of the second entry. -/
theorem C8_clone_url_carries_first_matching_credential_witness :
    demoGit.Parse "https://example.test/libfoo.git" =
      .ok ⟨"https", none, "example.test", "/libfoo.git"⟩ ∧
    demoGit.Exec [] (.MkdirAll "/home/vendor/src/libfoo") = none ∧
    ∃ ref, cloneCalls (gitSrc demoGit demoAuths "/home/vendor/src/libfoo" "libfoo"
        "https://example.test/libfoo.git" "" "release" "" []).1 =
      [("https://alice:t1@example.test/libfoo.git", ref)] := by
  obtain ⟨new, url, ref, h1, h2, -, h4⟩ :=
    C8_clone_url_carries_first_matching_credential demoGit demoAuths "/home/vendor/src/libfoo"
      "libfoo" "https://example.test/libfoo.git" "" "release" "" []
      ⟨"https", none, "example.test", "/libfoo.git"⟩ rfl rfl
  have hurl := h4 [⟨"other.test", "carol", "t0"⟩] ⟨"example.test", "alice", "t1"⟩
    [⟨"example.test", "bob", "t2"⟩] rfl (by decide) rfl
  simp only [List.nil_append] at h1
  refine ⟨rfl, rfl, ref, ?_⟩
  rw [h1, h2, hurl]
  rfl

theorem gitSrc_eq_cloneTail (G : GitLib URL) (auths : List Auth)
    (repositoryPrefix packageName gitPath hash branch tag : String) (log : List GitEvent) :
    gitSrc G auths repositoryPrefix packageName gitPath hash branch tag log =
      match G.Exec log (.MkdirAll repositoryPrefix) with
      | some e => (log ++ [⟨.MkdirAll repositoryPrefix, some e⟩], some e)
      | none =>
        match G.Parse gitPath with
        | .error e => (log ++ [⟨.MkdirAll repositoryPrefix, none⟩], some e)
        | .ok gitUrl =>
          cloneTail G repositoryPrefix (authLoop G gitUrl auths gitPath)
            (referenceName branch tag) hash (log ++ [⟨.MkdirAll repositoryPrefix, none⟩]) := by
  rfl

theorem get_gitSrc_eq_cloneTail (G : GitLib URL)
    (repositoryPrefix packageName gitPath hash branch tag : String) (log : List GitEvent) :
    get_gitSrc G repositoryPrefix packageName gitPath hash branch tag log =
      match G.Exec log (.MkdirAll repositoryPrefix) with
      | some e => (log ++ [⟨.MkdirAll repositoryPrefix, some e⟩], some e)
      | none =>
        cloneTail G repositoryPrefix gitPath (referenceName branch tag) hash
          (log ++ [⟨.MkdirAll repositoryPrefix, none⟩]) := by
  rfl

theorem cloneTail_char (G : GitLib URL) (repositoryPrefix repoUrl ref hash : String)
    (log1 : List GitEvent) :
    ∃ new, (cloneTail G repositoryPrefix repoUrl ref hash log1).1 = log1 ++ new ∧
      cloneCalls new = [(repoUrl, ref)] ∧
      (checkouts new ≠ [] ↔
        hash ≠ "" ∧ cloneOk new ∧ ∀ ev ∈ new, ev.call = .Worktree → ev.result = none) ∧
      (∀ h ∈ checkouts new, h = hash) := by
  unfold cloneTail removeGitDir
  cases hc : G.Exec log1 (.PlainClone repositoryPrefix false repoUrl ref) with
  | some e =>
    exact ⟨[⟨.PlainClone repositoryPrefix false repoUrl ref, some e⟩], by simp [hc],
      by simp [cloneCalls], by simp [checkouts, cloneOk], by simp [checkouts]⟩
  | none =>
    by_cases hh : hash = ""
    · cases hr : G.Exec (log1 ++ [⟨.PlainClone repositoryPrefix false repoUrl ref, none⟩])
          (.RemoveAll (G.Join repositoryPrefix ".git")) with
      | some e =>
        exact ⟨[⟨.PlainClone repositoryPrefix false repoUrl ref, none⟩,
          ⟨.RemoveAll (G.Join repositoryPrefix ".git"), some e⟩], by simp [hc, hh, hr],
          by simp [cloneCalls], by simp [checkouts, hh], by simp [checkouts]⟩
      | none =>
        exact ⟨[⟨.PlainClone repositoryPrefix false repoUrl ref, none⟩,
          ⟨.RemoveAll (G.Join repositoryPrefix ".git"), none⟩], by simp [hc, hh, hr],
          by simp [cloneCalls], by simp [checkouts, hh], by simp [checkouts]⟩
    · cases hw : G.Exec (log1 ++ [⟨.PlainClone repositoryPrefix false repoUrl ref, none⟩])
          .Worktree with
      | some e =>
        exact ⟨[⟨.PlainClone repositoryPrefix false repoUrl ref, none⟩,
          ⟨.Worktree, some e⟩], by simp [hc, hh, hw],
          by simp [cloneCalls], by simp [checkouts], by simp [checkouts]⟩
      | none =>
        cases hk : G.Exec (log1 ++ [⟨.PlainClone repositoryPrefix false repoUrl ref, none⟩,
            ⟨.Worktree, none⟩]) (.Checkout hash) with
        | some e =>
          exact ⟨[⟨.PlainClone repositoryPrefix false repoUrl ref, none⟩, ⟨.Worktree, none⟩,
            ⟨.Checkout hash, some e⟩], by simp [hc, hh, hw, hk],
            by simp [cloneCalls], by simp [checkouts, cloneOk, hh], by simp [checkouts]⟩
        | none =>
          cases hr : G.Exec (log1 ++ [⟨.PlainClone repositoryPrefix false repoUrl ref, none⟩,
              ⟨.Worktree, none⟩, ⟨.Checkout hash, none⟩])
              (.RemoveAll (G.Join repositoryPrefix ".git")) with
          | some e =>
            exact ⟨[⟨.PlainClone repositoryPrefix false repoUrl ref, none⟩, ⟨.Worktree, none⟩,
              ⟨.Checkout hash, none⟩, ⟨.RemoveAll (G.Join repositoryPrefix ".git"), some e⟩],
              by simp [hc, hh, hw, hk, hr],
              by simp [cloneCalls], by simp [checkouts, cloneOk, hh], by simp [checkouts]⟩
          | none =>
            exact ⟨[⟨.PlainClone repositoryPrefix false repoUrl ref, none⟩, ⟨.Worktree, none⟩,
              ⟨.Checkout hash, none⟩, ⟨.RemoveAll (G.Join repositoryPrefix ".git"), none⟩],
              by simp [hc, hh, hw, hk, hr],
              by simp [cloneCalls], by simp [checkouts, cloneOk, hh], by simp [checkouts]⟩

theorem referenceName_cases (branch tag : String) :
    (branch ≠ "" → referenceName branch tag = "refs/heads/" ++ branch) ∧
    (branch = "" → tag ≠ "" → referenceName branch tag = "refs/tags/" ++ tag) ∧
    (branch = "" → tag = "" → referenceName branch tag = "") := by
  unfold referenceName
  refine ⟨fun h => by simp [h], fun h1 h2 => by simp [h1, h2], fun h1 h2 => by simp [h1, h2]⟩

theorem cloneOk_cons_mkdir (path : String) (r : Option Err) (t : List GitEvent) :
    cloneOk ((⟨.MkdirAll path, r⟩ : GitEvent) :: t) ↔ cloneOk t := by
  simp [cloneOk]

theorem worktreeOk_cons_mkdir (path : String) (r : Option Err) (t : List GitEvent) :
    (∀ ev ∈ (⟨.MkdirAll path, r⟩ : GitEvent) :: t, ev.call = .Worktree → ev.result = none) ↔
      (∀ ev ∈ t, ev.call = .Worktree → ev.result = none) := by
  simp

theorem gitSrc_char (G : GitLib URL) (auths : List Auth)
    (repositoryPrefix packageName gitPath hash branch tag : String) (log : List GitEvent) :
    ∃ new,
      (gitSrc G auths repositoryPrefix packageName gitPath hash branch tag log).1 = log ++ new ∧
      (∀ c ∈ cloneCalls new, c.2 = referenceName branch tag) ∧
      (G.Exec log (.MkdirAll repositoryPrefix) = none → (∃ u, G.Parse gitPath = .ok u) →
        (cloneCalls new).length = 1) ∧
      (checkouts new ≠ [] ↔
        hash ≠ "" ∧ cloneOk new ∧ ∀ ev ∈ new, ev.call = .Worktree → ev.result = none) ∧
      (∀ h ∈ checkouts new, h = hash) := by
  rw [gitSrc_eq_cloneTail]
  cases hm : G.Exec log (.MkdirAll repositoryPrefix) with
  | some e =>
    exact ⟨[⟨.MkdirAll repositoryPrefix, some e⟩], rfl, by simp [cloneCalls], by simp,
      by simp [checkouts, cloneOk], by simp [checkouts]⟩
  | none =>
    cases hp : G.Parse gitPath with
    | error e =>
      exact ⟨[⟨.MkdirAll repositoryPrefix, none⟩], rfl, by simp [cloneCalls], by simp,
        by simp [checkouts, cloneOk], by simp [checkouts]⟩
    | ok u =>
      obtain ⟨new, h1, h2, h3, h5⟩ := cloneTail_char G repositoryPrefix
        (authLoop G u auths gitPath) (referenceName branch tag) hash
        (log ++ [⟨.MkdirAll repositoryPrefix, none⟩])
      have hcc : cloneCalls ((⟨.MkdirAll repositoryPrefix, none⟩ : GitEvent) :: new) =
          cloneCalls new := by simp [cloneCalls]
      have hck : checkouts ((⟨.MkdirAll repositoryPrefix, none⟩ : GitEvent) :: new) =
          checkouts new := by simp [checkouts]
      refine ⟨⟨.MkdirAll repositoryPrefix, none⟩ :: new, by simp [h1], ?_, ?_, ?_, ?_⟩
      · rw [hcc, h2]; simp
      · intro _ _; rw [hcc, h2]; rfl
      · rw [hck, cloneOk_cons_mkdir, worktreeOk_cons_mkdir]; exact h3
      · rw [hck]; exact h5

theorem get_gitSrc_char (G : GitLib URL)
    (repositoryPrefix packageName gitPath hash branch tag : String) (log : List GitEvent) :
    ∃ new,
      (get_gitSrc G repositoryPrefix packageName gitPath hash branch tag log).1 = log ++ new ∧
      (∀ c ∈ cloneCalls new, c.2 = referenceName branch tag) ∧
      (G.Exec log (.MkdirAll repositoryPrefix) = none → (cloneCalls new).length = 1) ∧
      (checkouts new ≠ [] ↔
        hash ≠ "" ∧ cloneOk new ∧ ∀ ev ∈ new, ev.call = .Worktree → ev.result = none) ∧
      (∀ h ∈ checkouts new, h = hash) := by
  rw [get_gitSrc_eq_cloneTail]
  cases hm : G.Exec log (.MkdirAll repositoryPrefix) with
  | some e =>
    exact ⟨[⟨.MkdirAll repositoryPrefix, some e⟩], rfl, by simp [cloneCalls], by simp,
      by simp [checkouts, cloneOk], by simp [checkouts]⟩
  | none =>
    obtain ⟨new, h1, h2, h3, h5⟩ := cloneTail_char G repositoryPrefix
      gitPath (referenceName branch tag) hash
      (log ++ [⟨.MkdirAll repositoryPrefix, none⟩])
    have hcc : cloneCalls ((⟨.MkdirAll repositoryPrefix, none⟩ : GitEvent) :: new) =
        cloneCalls new := by simp [cloneCalls]
    have hck : checkouts ((⟨.MkdirAll repositoryPrefix, none⟩ : GitEvent) :: new) =
        checkouts new := by simp [checkouts]
    refine ⟨⟨.MkdirAll repositoryPrefix, none⟩ :: new, by simp [h1], ?_, ?_, ?_, ?_⟩
    · rw [hcc, h2]; simp
    · intro _; rw [hcc, h2]; rfl
    · rw [hck, cloneOk_cons_mkdir, worktreeOk_cons_mkdir]; exact h3
    · rw [hck]; exact h5

/-- C7 (as amended): in gitSrc of src_dl.go and in get.gitSrc of install.go, every
clone is made with the reference "refs/heads/" ++ branch when branch is
non-empty, else "refs/tags/" ++ tag when tag is non-empty, else the empty
reference; a clone is made whenever the directory is made (and, in
src_dl.go, the URL parses); a checkout is made if and only if hash is
non-empty, the clone returned no error and `repos.Worktree()` did not fail,
and it is a checkout of hash. -/
theorem C7_clone_reference_and_checkout (G : GitLib URL) (auths : List Auth)
    (repositoryPrefix packageName gitPath hash branch tag : String) (log : List GitEvent) :
    ∃ new new2,
      (gitSrc G auths repositoryPrefix packageName gitPath hash branch tag log).1 = log ++ new ∧
      (get_gitSrc G repositoryPrefix packageName gitPath hash branch tag log).1 = log ++ new2 ∧
      (∀ c ∈ cloneCalls new ++ cloneCalls new2,
        (branch ≠ "" → c.2 = "refs/heads/" ++ branch) ∧
        (branch = "" → tag ≠ "" → c.2 = "refs/tags/" ++ tag) ∧
        (branch = "" → tag = "" → c.2 = "")) ∧
      (G.Exec log (.MkdirAll repositoryPrefix) = none →
        (cloneCalls new2).length = 1 ∧
        ((∃ u, G.Parse gitPath = .ok u) → (cloneCalls new).length = 1)) ∧
      (checkouts new ≠ [] ↔
        hash ≠ "" ∧ cloneOk new ∧ ∀ ev ∈ new, ev.call = .Worktree → ev.result = none) ∧
      (checkouts new2 ≠ [] ↔
        hash ≠ "" ∧ cloneOk new2 ∧ ∀ ev ∈ new2, ev.call = .Worktree → ev.result = none) ∧
      (∀ h ∈ checkouts new ++ checkouts new2, h = hash) := by
  obtain ⟨new, a1, a2, a3, a4, a6⟩ :=
    gitSrc_char G auths repositoryPrefix packageName gitPath hash branch tag log
  obtain ⟨new2, b1, b2, b3, b4, b6⟩ :=
    get_gitSrc_char G repositoryPrefix packageName gitPath hash branch tag log
  obtain ⟨r1, r2, r3⟩ := referenceName_cases branch tag
  refine ⟨new, new2, a1, b1, ?_, fun hm => ⟨b3 hm, a3 hm⟩, a4, b4, ?_⟩
  · intro c hc
    have hc2 : c.2 = referenceName branch tag := by
      rcases List.mem_append.mp hc with h | h
      · exact a2 c h
      · exact b2 c h
    rw [hc2]
    exact ⟨r1, r2, r3⟩
  · intro h hh
    rcases List.mem_append.mp hh with h2 | h2
    · exact a6 h h2
    · exact b6 h h2

/-- C7 (as amended) on a branch, a tag and a commit given together, every call
succeeding: the clone of gitSrc is made with the branch reference, and
get.gitSrc checks the commit out. -/
theorem C7_clone_reference_and_checkout_witness :
    cloneCalls (gitSrc demoGit demoAuths "/home/vendor/src/libbar" "libbar"
        "https://other.test/libbar.git" "abc123" "release" "v1" []).1 =
      [("https://carol:t0@other.test/libbar.git", "refs/heads/release")] ∧
    checkouts (get_gitSrc demoGit "/home/vendor/src/libbar" "libbar"
        "https://other.test/libbar.git" "abc123" "release" "v1" []).1 ≠ [] := by
  obtain ⟨new, new2, h1, h2, -, -, -, h8, -⟩ :=
    C7_clone_reference_and_checkout demoGit demoAuths "/home/vendor/src/libbar" "libbar"
      "https://other.test/libbar.git" "abc123" "release" "v1" []
  simp only [List.nil_append] at h1 h2
  refine ⟨by rfl, ?_⟩
  rw [h2]
  refine h8.mpr ⟨by decide, ?_, ?_⟩
  · rw [← h2]
    exact ⟨⟨.PlainClone "/home/vendor/src/libbar" false "https://other.test/libbar.git"
      "refs/heads/release", none⟩, by decide, ⟨_, _, _, _, rfl⟩, rfl⟩
  · rw [← h2]
    decide

/-- C7 as stated fails: hash is non-empty and the clone returns no error, but
`repos.Worktree()` fails, and neither gitSrc nor get.gitSrc makes a
checkout: both return the error. -/
theorem C7_no_checkout_when_Worktree_fails :
    ("abc123" : String) ≠ "" ∧
    calls (gitSrc bareGit demoAuths "/home/vendor/src/libbar" "libbar"
        "https://other.test/libbar.git" "abc123" "release" "" []).1 =
      [.MkdirAll "/home/vendor/src/libbar",
       .PlainClone "/home/vendor/src/libbar" false "https://carol:t0@other.test/libbar.git"
         "refs/heads/release",
       .Worktree] ∧
    cloneOk (gitSrc bareGit demoAuths "/home/vendor/src/libbar" "libbar"
        "https://other.test/libbar.git" "abc123" "release" "" []).1 ∧
    checkouts (gitSrc bareGit demoAuths "/home/vendor/src/libbar" "libbar"
        "https://other.test/libbar.git" "abc123" "release" "" []).1 = [] ∧
    (gitSrc bareGit demoAuths "/home/vendor/src/libbar" "libbar"
        "https://other.test/libbar.git" "abc123" "release" "" []).2 =
      some "worktree not available in a bare repository" ∧
    cloneOk (get_gitSrc bareGit "/home/vendor/src/libbar" "libbar"
        "https://other.test/libbar.git" "abc123" "release" "" []).1 ∧
    checkouts (get_gitSrc bareGit "/home/vendor/src/libbar" "libbar"
        "https://other.test/libbar.git" "abc123" "release" "" []).1 = [] := by
  refine ⟨by decide, by decide, ?_, by decide, by decide, ?_, by decide⟩
  · exact ⟨⟨.PlainClone "/home/vendor/src/libbar" false
      "https://carol:t0@other.test/libbar.git" "refs/heads/release", none⟩, by decide,
      ⟨_, _, _, _, rfl⟩, rfl⟩
  · exact ⟨⟨.PlainClone "/home/vendor/src/libbar" false
      "https://other.test/libbar.git" "refs/heads/release", none⟩, by decide,
      ⟨_, _, _, _, rfl⟩, rfl⟩

end claims_git

section resolver

theorem setDependency_Dependency (t : DependencyTree) (d : List DependencyTree) :
    (t.setDependency d).Dependency = d := by
  cases t; rfl

theorem setDependency_setDependency (t : DependencyTree) (d d2 : List DependencyTree) :
    (t.setDependency d).setDependency d2 = t.setDependency d2 := by
  cases t; rfl

theorem setDependency_self (t : DependencyTree) : t.setDependency t.Dependency = t := by
  cases t; rfl

theorem setDependency_nodeKey (t : DependencyTree) (d : List DependencyTree) :
    nodeKey (t.setDependency d) = nodeKey t := by
  cases t; rfl

theorem setDependency_DlStatus (t : DependencyTree) (d : List DependencyTree) :
    (t.setDependency d).DlStatus = t.DlStatus := by
  cases t; rfl

theorem StatChecked_append (S : Sys) (a b log : List Event) :
    StatChecked S log (a ++ b) ↔ StatChecked S log a ∧ StatChecked S (log ++ a) b := by
  induction a generalizing log with
  | nil => simp [StatChecked]
  | cons ev a ih =>
    show (_ ∧ StatChecked S (log ++ [ev]) (a ++ b)) ↔
      (_ ∧ StatChecked S (log ++ [ev]) a) ∧ StatChecked S (log ++ ev :: a) b
    rw [ih]
    have h : log ++ [ev] ++ a = log ++ ev :: a := by simp
    rw [h]
    exact and_assoc.symm

theorem FailShape_nil (res : Res) : FailShape [] res := Or.inl allOk_nil

theorem FailShape_ok (new : List Event) (h : FailShape new .ok) : allOk new := by
  rcases h with h | ⟨_, _, _, _, _, h⟩
  · exact h
  · cases h

theorem FailShape_append (a b : List Event) (res : Res) (ha : allOk a) (hb : FailShape b res) :
    FailShape (a ++ b) res := by
  rcases hb with hb | ⟨pre, c, e, h1, h2, h3⟩
  · exact Or.inl ((allOk_append a b).mpr ⟨ha, hb⟩)
  · exact Or.inr ⟨a ++ pre, c, e, by rw [h1, List.append_assoc],
      (allOk_append a pre).mpr ⟨ha, h2⟩, h3⟩

theorem Inv_refl (S : Sys) (log : List Event) (t : DependencyTree) (res : Res) :
    Inv S log t ⟨log, t, res⟩ :=
  ⟨[], [], by simp, by simp [setDependency_self], FailShape_nil res, trivial, trivial⟩

theorem Inv_trans (S : Sys) (log : List Event) (t : DependencyTree) (out1 out2 : DlOut)
    (h1 : Inv S log t out1) (hok : out1.res = .ok) (h2 : Inv S out1.log out1.tree out2) :
    Inv S log t out2 := by
  obtain ⟨new1, add1, a1, a2, a3, a4, a5⟩ := h1
  obtain ⟨new2, add2, b1, b2, b3, b4, b5⟩ := h2
  rw [hok] at a3
  refine ⟨new1 ++ new2, add1 ++ add2, ?_, ?_, ?_, ?_, ?_⟩
  · rw [b1, a1, List.append_assoc]
  · rw [b2, a2, setDependency_setDependency, setDependency_Dependency, List.append_assoc]
  · exact FailShape_append new1 new2 out2.res (FailShape_ok new1 a3) b3
  · rw [Faithful_append]; rw [a1] at b4; exact ⟨a4, b4⟩
  · rw [StatChecked_append]; rw [a1] at b5; exact ⟨a5, b5⟩

theorem Inv_noevent (S : Sys) (log : List Event) (t : DependencyTree)
    (added : List DependencyTree) (res : Res) :
    Inv S log t ⟨log, t.setDependency (t.Dependency ++ added), res⟩ :=
  ⟨[], added, by simp, rfl, FailShape_nil res, trivial, trivial⟩

theorem Inv_single (S : Sys) (log : List Event) (t : DependencyTree) (c : FetchCall)
    (r : Option Err) (added : List DependencyTree) (res : Res)
    (hf : r = S.Fetch log c)
    (hs : statOk S log c)
    (hres : r = none ∨ ∃ e, r = some e ∧ res = .err e) :
    Inv S log t ⟨log ++ [⟨c, r⟩], t.setDependency (t.Dependency ++ added), res⟩ := by
  refine ⟨[⟨c, r⟩], added, rfl, rfl, ?_, ⟨hf, trivial⟩, ⟨hs, trivial⟩⟩
  rcases hres with h | ⟨e, h1, h2⟩
  · left
    intro ev hev
    simp only [List.mem_singleton] at hev
    rw [hev]; exact h
  · right
    exact ⟨[], c, e, by simp [h1], allOk_nil, h2⟩

theorem Inv_single_same (S : Sys) (log : List Event) (t : DependencyTree) (c : FetchCall)
    (r : Option Err) (res : Res)
    (hf : r = S.Fetch log c)
    (hs : statOk S log c)
    (hres : r = none ∨ ∃ e, r = some e ∧ res = .err e) :
    Inv S log t ⟨log ++ [⟨c, r⟩], t, res⟩ := by
  have h := Inv_single S log t c r [] res hf hs hres
  simpa [setDependency_self] using h

theorem archiveLoop_Inv (S : Sys) (pkgHome : String) (l : List (String × ArchivePackage))
    (t : DependencyTree) (log : List Event) :
    Inv S log t ⟨(archiveLoop S pkgHome l log).1, t,
      match (archiveLoop S pkgHome l log).2 with
      | some e => .err e
      | none => .ok⟩ := by
  induction l generalizing log with
  | nil => exact Inv_refl S log t _
  | cons entry rest ih =>
    obtain ⟨key, pkg⟩ := entry
    cases hf : S.Fetch log (.archiveSrc pkgHome key pkg.Path) with
    | some e =>
      simp only [archiveLoop, hf]
      exact Inv_single_same S log t _ _ _ hf.symm trivial (Or.inr ⟨e, rfl, rfl⟩)
    | none =>
      simp only [archiveLoop, hf]
      exact Inv_trans S log t ⟨log ++ [⟨.archiveSrc pkgHome key pkg.Path, none⟩], t, .ok⟩ _
        (Inv_single_same S log t _ _ _ hf.symm trivial (Or.inl rfl)) rfl (ih _)

theorem filesStep_Inv (S : Sys) (pkgHome : String) (entry : String × FilesPackage)
    (t : DependencyTree) (log : List Event) :
    Inv S log t (filesStep S pkgHome entry t log) := by
  cases hs : S.Stat log (S.GetPackageSrcPath pkgHome entry.1) with
  | found =>
    simp only [filesStep, hs]
    exact Inv_noevent S log t _ _
  | failed e =>
    simp only [filesStep, hs]
    exact Inv_refl S log t _
  | notExist =>
    cases hf : S.Fetch log (.filesSrc (S.GetPackageSrcPath pkgHome entry.1) entry.1
        entry.2.Path entry.2.Files) with
    | some e =>
      simp only [filesStep, hs, hf]
      exact Inv_single_same S log t _ _ _ hf.symm hs (Or.inr ⟨e, rfl, rfl⟩)
    | none =>
      simp only [filesStep, hs, hf]
      exact Inv_single S log t _ _ _ _ hf.symm hs (Or.inl rfl)

theorem filesLoop_cons (S : Sys) (pkgHome : String) (entry : String × FilesPackage)
    (rest : List (String × FilesPackage)) (t : DependencyTree) (log : List Event) :
    filesLoop S pkgHome (entry :: rest) t log =
      if (filesStep S pkgHome entry t log).res = .ok then
        filesLoop S pkgHome rest (filesStep S pkgHome entry t log).tree
          (filesStep S pkgHome entry t log).log
      else filesStep S pkgHome entry t log := by
  rcases h : filesStep S pkgHome entry t log with ⟨l1, t1, r⟩
  cases r <;> simp [filesLoop, h]

theorem filesLoop_Inv (S : Sys) (pkgHome : String) (l : List (String × FilesPackage))
    (t : DependencyTree) (log : List Event) :
    Inv S log t (filesLoop S pkgHome l t log) := by
  induction l generalizing t log with
  | nil => exact Inv_refl S log t _
  | cons entry rest ih =>
    rw [filesLoop_cons]
    split
    · next h => exact Inv_trans S log t _ _ (filesStep_Inv S pkgHome entry t log) h (ih _ _)
    · exact filesStep_Inv S pkgHome entry t log

theorem installSubDependency_Inv (S : Sys) (g : get)
    (dl : String → Packages → DependencyTree → List Event → DlOut)
    (hdl : ∀ ph pk t l, Inv S l t (dl ph pk t l))
    (installPath : String) (t : DependencyTree) (log : List Event) :
    Inv S log t (installSubDependency S g dl installPath t log) := by
  unfold installSubDependency
  split
  · exact hdl _ _ _ _
  all_goals exact Inv_refl S log t _

theorem gitAttach_Inv (S : Sys) (g : get)
    (dl : String → Packages → DependencyTree → List Event → DlOut)
    (hdl : ∀ ph pk t l, Inv S l t (dl ph pk t l))
    (srcDes : String) (dep t : DependencyTree) (log : List Event) :
    Inv S log t (gitAttach S g dl srcDes dep t log) := by
  obtain ⟨new, added, h1, -, h3, h4, h5⟩ := installSubDependency_Inv S g dl hdl srcDes dep log
  exact ⟨new, [(installSubDependency S g dl srcDes dep log).tree], h1, rfl, h3, h4, h5⟩

theorem gitStep_Inv (S : Sys) (g : get)
    (dl : String → Packages → DependencyTree → List Event → DlOut)
    (hdl : ∀ ph pk t l, Inv S l t (dl ph pk t l))
    (pkgHome : String) (entry : String × GitPackage) (t : DependencyTree) (log : List Event) :
    Inv S log t (gitStep S g dl pkgHome entry t log) := by
  cases hs : S.Stat log (S.GetPackageSrcPath pkgHome entry.1) with
  | found =>
    simp only [gitStep, hs]
    exact gitAttach_Inv S g dl hdl _ _ t log
  | failed e =>
    simp only [gitStep, hs]
    exact Inv_refl S log t _
  | notExist =>
    cases hf : S.Fetch log (.gitSrc (S.GetPackageSrcPath pkgHome entry.1) entry.1
        entry.2.Path entry.2.Hash entry.2.Branch entry.2.Tag) with
    | some e =>
      simp only [gitStep, hs, hf]
      exact Inv_single_same S log t _ _ _ hf.symm hs (Or.inr ⟨e, rfl, rfl⟩)
    | none =>
      simp only [gitStep, hs, hf]
      exact Inv_trans S log t ⟨log ++ [⟨.gitSrc (S.GetPackageSrcPath pkgHome entry.1) entry.1
        entry.2.Path entry.2.Hash entry.2.Branch entry.2.Tag, none⟩], t, .ok⟩ _
        (Inv_single_same S log t _ _ _ hf.symm hs (Or.inl rfl)) rfl
        (gitAttach_Inv S g dl hdl _ _ t _)

theorem gitLoop_cons (S : Sys) (g : get)
    (dl : String → Packages → DependencyTree → List Event → DlOut) (pkgHome : String)
    (entry : String × GitPackage) (rest : List (String × GitPackage))
    (t : DependencyTree) (log : List Event) :
    gitLoop S g dl pkgHome (entry :: rest) t log =
      if (gitStep S g dl pkgHome entry t log).res = .ok then
        gitLoop S g dl pkgHome rest (gitStep S g dl pkgHome entry t log).tree
          (gitStep S g dl pkgHome entry t log).log
      else gitStep S g dl pkgHome entry t log := by
  rcases h : gitStep S g dl pkgHome entry t log with ⟨l1, t1, r⟩
  cases r <;> simp [gitLoop, h]

theorem gitLoop_Inv (S : Sys) (g : get)
    (dl : String → Packages → DependencyTree → List Event → DlOut)
    (hdl : ∀ ph pk t l, Inv S l t (dl ph pk t l))
    (pkgHome : String) (l : List (String × GitPackage)) (t : DependencyTree) (log : List Event) :
    Inv S log t (gitLoop S g dl pkgHome l t log) := by
  induction l generalizing t log with
  | nil => exact Inv_refl S log t _
  | cons entry rest ih =>
    rw [gitLoop_cons]
    split
    · next h => exact Inv_trans S log t _ _ (gitStep_Inv S g dl hdl pkgHome entry t log) h (ih _ _)
    · exact gitStep_Inv S g dl hdl pkgHome entry t log

theorem dlSrc_succ (S : Sys) (g : get) (fuel : Nat) (pkgHome : String) (packages : Packages)
    (t : DependencyTree) (log : List Event) :
    dlSrc S g (fuel + 1) pkgHome packages t log =
      match (archiveLoop S pkgHome packages.ArchivePackages log).2 with
      | some e => ⟨(archiveLoop S pkgHome packages.ArchivePackages log).1, t, .err e⟩
      | none =>
        if (filesLoop S pkgHome packages.FilesPackages t
            (archiveLoop S pkgHome packages.ArchivePackages log).1).res = .ok then
          gitLoop S g (dlSrc S g fuel) pkgHome packages.GitPackages
            (filesLoop S pkgHome packages.FilesPackages t
              (archiveLoop S pkgHome packages.ArchivePackages log).1).tree
            (filesLoop S pkgHome packages.FilesPackages t
              (archiveLoop S pkgHome packages.ArchivePackages log).1).log
        else filesLoop S pkgHome packages.FilesPackages t
          (archiveLoop S pkgHome packages.ArchivePackages log).1 := by
  rcases ha : archiveLoop S pkgHome packages.ArchivePackages log with ⟨l1, r⟩
  cases r with
  | some e => simp [dlSrc, ha]
  | none =>
    rcases hf : filesLoop S pkgHome packages.FilesPackages t l1 with ⟨l2, t2, r2⟩
    cases r2 <;> simp [dlSrc, ha, hf]

theorem dlSrc_Inv (S : Sys) (g : get) (fuel : Nat) :
    ∀ (pkgHome : String) (packages : Packages) (t : DependencyTree) (log : List Event),
      Inv S log t (dlSrc S g fuel pkgHome packages t log) := by
  induction fuel with
  | zero => intro pkgHome packages t log; exact Inv_refl S log t _
  | succ n ih =>
    intro pkgHome packages t log
    rw [dlSrc_succ]
    have ha := archiveLoop_Inv S pkgHome packages.ArchivePackages t log
    cases hr : (archiveLoop S pkgHome packages.ArchivePackages log).2 with
    | some e =>
      rw [hr] at ha
      exact ha
    | none =>
      rw [hr] at ha
      simp only
      have hf := filesLoop_Inv S pkgHome packages.FilesPackages t
        (archiveLoop S pkgHome packages.ArchivePackages log).1
      split
      · next h =>
        exact Inv_trans S log t _ _ (Inv_trans S log t _ _ ha rfl hf) h
          (gitLoop_Inv S g _ ih pkgHome packages.GitPackages _ _)
      · exact Inv_trans S log t _ _ ha rfl hf

theorem filesStep_ok (S : Sys) (pkgHome : String) (entry : String × FilesPackage)
    (t : DependencyTree) (log : List Event)
    (hok : (filesStep S pkgHome entry t log).res = .ok) :
    ∃ n, (filesStep S pkgHome entry t log).tree = t.setDependency (t.Dependency ++ [n]) ∧
      nodeKey n = entryKey S pkgHome entry.1 entry.2.Package.Build ∧
      (n.DlStatus = DlStatusSkip ∨ n.DlStatus = DlStatusOk) ∧ n.Dependency = [] := by
  revert hok
  cases hs : S.Stat log (S.GetPackageSrcPath pkgHome entry.1) with
  | found =>
    simp only [filesStep, hs]
    intro _
    exact ⟨_, rfl, rfl, Or.inl rfl, rfl⟩
  | failed e =>
    simp only [filesStep, hs]
    intro h; cases h
  | notExist =>
    cases hf : S.Fetch log (.filesSrc (S.GetPackageSrcPath pkgHome entry.1) entry.1
        entry.2.Path entry.2.Files) with
    | some e =>
      simp only [filesStep, hs, hf]
      intro h; cases h
    | none =>
      simp only [filesStep, hs, hf]
      intro _
      exact ⟨_, rfl, rfl, Or.inr rfl, rfl⟩

theorem filesLoop_ok (S : Sys) (pkgHome : String) (l : List (String × FilesPackage))
    (t : DependencyTree) (log : List Event)
    (hok : (filesLoop S pkgHome l t log).res = .ok) :
    ∃ F, (filesLoop S pkgHome l t log).tree = t.setDependency (t.Dependency ++ F) ∧
      F.map nodeKey = l.map (fun e => entryKey S pkgHome e.1 e.2.Package.Build) ∧
      (∀ n ∈ F, n.DlStatus = DlStatusSkip ∨ n.DlStatus = DlStatusOk) ∧
      (∀ n ∈ F, n.Dependency = []) := by
  induction l generalizing t log with
  | nil => exact ⟨[], by simp [filesLoop, setDependency_self], rfl, by simp, by simp⟩
  | cons entry rest ih =>
    rw [filesLoop_cons] at hok ⊢
    by_cases h : (filesStep S pkgHome entry t log).res = .ok
    · simp only [h, if_true] at hok ⊢
      obtain ⟨n, h1, h2, h3, h4⟩ := filesStep_ok S pkgHome entry t log h
      obtain ⟨F, g1, g2, g3, g4⟩ := ih _ _ hok
      refine ⟨n :: F, ?_, by simp [h2, g2], ?_, ?_⟩
      · rw [g1, h1, setDependency_setDependency, setDependency_Dependency]
        simp
      · intro m hm
        rcases List.mem_cons.mp hm with rfl | hm
        · exact h3
        · exact g3 m hm
      · intro m hm
        rcases List.mem_cons.mp hm with rfl | hm
        · exact h4
        · exact g4 m hm
    · simp only [h, if_false] at hok

theorem gitAttach_tree (S : Sys) (g : get)
    (dl : String → Packages → DependencyTree → List Event → DlOut)
    (hdl : ∀ ph pk t l, Inv S l t (dl ph pk t l))
    (srcDes : String) (dep t : DependencyTree) (log : List Event) :
    ∃ n, (gitAttach S g dl srcDes dep t log).tree = t.setDependency (t.Dependency ++ [n]) ∧
      nodeKey n = nodeKey dep ∧ n.DlStatus = dep.DlStatus := by
  obtain ⟨new, added, -, h2, -, -, -⟩ := installSubDependency_Inv S g dl hdl srcDes dep log
  refine ⟨(installSubDependency S g dl srcDes dep log).tree, rfl, ?_, ?_⟩
  · rw [h2, setDependency_nodeKey]
  · rw [h2, setDependency_DlStatus]

theorem gitStep_ok (S : Sys) (g : get)
    (dl : String → Packages → DependencyTree → List Event → DlOut)
    (hdl : ∀ ph pk t l, Inv S l t (dl ph pk t l))
    (pkgHome : String) (entry : String × GitPackage) (t : DependencyTree) (log : List Event)
    (hok : (gitStep S g dl pkgHome entry t log).res = .ok) :
    ∃ n, (gitStep S g dl pkgHome entry t log).tree = t.setDependency (t.Dependency ++ [n]) ∧
      nodeKey n = entryKey S pkgHome entry.1 entry.2.Package.Build ∧
      (n.DlStatus = DlStatusSkip ∨ n.DlStatus = DlStatusOk) := by
  revert hok
  cases hs : S.Stat log (S.GetPackageSrcPath pkgHome entry.1) with
  | found =>
    simp only [gitStep, hs]
    intro _
    obtain ⟨n, h1, h2, h3⟩ := gitAttach_tree S g dl hdl (S.GetPackageSrcPath pkgHome entry.1)
      ((DependencyTree.mk ⟨entry.1, S.GetPackageSrcPath pkgHome entry.1⟩ []
        entry.2.Package.Build DlStatusEmpty).setDlStatus DlStatusSkip) t log
    exact ⟨n, h1, h2, Or.inl h3⟩
  | failed e =>
    simp only [gitStep, hs]
    intro h; cases h
  | notExist =>
    cases hf : S.Fetch log (.gitSrc (S.GetPackageSrcPath pkgHome entry.1) entry.1
        entry.2.Path entry.2.Hash entry.2.Branch entry.2.Tag) with
    | some e =>
      simp only [gitStep, hs, hf]
      intro h; cases h
    | none =>
      simp only [gitStep, hs, hf]
      intro _
      obtain ⟨n, h1, h2, h3⟩ := gitAttach_tree S g dl hdl (S.GetPackageSrcPath pkgHome entry.1)
        ((DependencyTree.mk ⟨entry.1, S.GetPackageSrcPath pkgHome entry.1⟩ []
          entry.2.Package.Build DlStatusEmpty).setDlStatus DlStatusOk) t
        (log ++ [⟨.gitSrc (S.GetPackageSrcPath pkgHome entry.1) entry.1
          entry.2.Path entry.2.Hash entry.2.Branch entry.2.Tag, none⟩])
      exact ⟨n, h1, h2, Or.inr h3⟩

theorem gitLoop_ok (S : Sys) (g : get)
    (dl : String → Packages → DependencyTree → List Event → DlOut)
    (hdl : ∀ ph pk t l, Inv S l t (dl ph pk t l))
    (pkgHome : String) (l : List (String × GitPackage)) (t : DependencyTree) (log : List Event)
    (hok : (gitLoop S g dl pkgHome l t log).res = .ok) :
    ∃ G, (gitLoop S g dl pkgHome l t log).tree = t.setDependency (t.Dependency ++ G) ∧
      G.map nodeKey = l.map (fun e => entryKey S pkgHome e.1 e.2.Package.Build) ∧
      (∀ n ∈ G, n.DlStatus = DlStatusSkip ∨ n.DlStatus = DlStatusOk) := by
  induction l generalizing t log with
  | nil => exact ⟨[], by simp [gitLoop, setDependency_self], rfl, by simp⟩
  | cons entry rest ih =>
    rw [gitLoop_cons] at hok ⊢
    by_cases h : (gitStep S g dl pkgHome entry t log).res = .ok
    · simp only [h, if_true] at hok ⊢
      obtain ⟨n, h1, h2, h3⟩ := gitStep_ok S g dl hdl pkgHome entry t log h
      obtain ⟨G, g1, g2, g3⟩ := ih _ _ hok
      refine ⟨n :: G, ?_, by simp [h2, g2], ?_⟩
      · rw [g1, h1, setDependency_setDependency, setDependency_Dependency]
        simp
      · intro m hm
        rcases List.mem_cons.mp hm with rfl | hm
        · exact h3
        · exact g3 m hm
    · simp only [h, if_false] at hok

theorem dlSrc_ok (S : Sys) (g : get) (fuel : Nat) (pkgHome : String) (packages : Packages)
    (t : DependencyTree) (log : List Event)
    (hok : (dlSrc S g fuel pkgHome packages t log).res = .ok) :
    ∃ F G, (dlSrc S g fuel pkgHome packages t log).tree =
        t.setDependency (t.Dependency ++ F ++ G) ∧
      NodesFor S pkgHome packages F G := by
  cases fuel with
  | zero => simp [dlSrc] at hok
  | succ n =>
    rw [dlSrc_succ] at hok ⊢
    cases hr : (archiveLoop S pkgHome packages.ArchivePackages log).2 with
    | some e => rw [hr] at hok; cases hok
    | none =>
      rw [hr] at hok
      simp only at hok ⊢
      by_cases h : (filesLoop S pkgHome packages.FilesPackages t
            (archiveLoop S pkgHome packages.ArchivePackages log).1).res = .ok
      · simp only [h, if_true] at hok ⊢
        obtain ⟨F, f1, f2, f3, f4⟩ := filesLoop_ok S pkgHome packages.FilesPackages t _ h
        obtain ⟨G, g1, g2, g3⟩ := gitLoop_ok S g (dlSrc S g n) (dlSrc_Inv S g n) pkgHome
          packages.GitPackages _ _ hok
        refine ⟨F, G, ?_, f2, g2, ?_, f4⟩
        · rw [g1, f1, setDependency_setDependency, setDependency_Dependency]
        · intro m hm
          rcases List.mem_append.mp hm with hm | hm
          · exact f3 m hm
          · exact g3 m hm
      · simp only [h, if_false] at hok

/-- C5: when dlSrc succeeds, the children of the parent afterwards are the
children it had, followed by one node per files entry in order, followed by
one node per git entry in order; each new node has the name of its entry, the
source path derived from pkgHome and that name, the outer build of the entry
as Builder, and a status Skip or Ok; archive entries give no node. -/
theorem C5_children_are_files_then_git_nodes (S : Sys) (g : get) (fuel : Nat)
    (pkgHome : String) (packages : Packages) (t : DependencyTree) (log : List Event)
    (hok : (dlSrc S g fuel pkgHome packages t log).res = .ok) :
    ∃ F G, (dlSrc S g fuel pkgHome packages t log).tree.Dependency = t.Dependency ++ F ++ G ∧
      F.map (fun n => (n.PackageName, n.SrcPath, n.Builder)) =
        packages.FilesPackages.map
          (fun e => (e.1, S.GetPackageSrcPath pkgHome e.1, e.2.Package.Build)) ∧
      G.map (fun n => (n.PackageName, n.SrcPath, n.Builder)) =
        packages.GitPackages.map
          (fun e => (e.1, S.GetPackageSrcPath pkgHome e.1, e.2.Package.Build)) ∧
      (∀ n ∈ F ++ G, n.DlStatus = DlStatusSkip ∨ n.DlStatus = DlStatusOk) := by
  obtain ⟨F, G, h1, h2, h3, h4, -⟩ := dlSrc_ok S g fuel pkgHome packages t log hok
  exact ⟨F, G, by rw [h1, setDependency_Dependency], h2, h3, h4⟩

/-- C5 on the demonstration project, nothing fetched before: dlSrc succeeds and
the root gets the node of `hdr` and then the node of `libA`. -/
theorem C5_children_are_files_then_git_nodes_witness :
    (dlSrc (demoSys []) ⟨"/proj"⟩ 3 "/proj" rootManifest rootTree []).res = .ok ∧
    ∃ F G, (dlSrc (demoSys []) ⟨"/proj"⟩ 3 "/proj" rootManifest rootTree []).tree.Dependency =
        rootTree.Dependency ++ F ++ G ∧
      F.map (fun n => (n.PackageName, n.SrcPath, n.Builder)) =
        [("hdr", "/proj/vendor/src/hdr", ["echo hdr"])] ∧
      G.map (fun n => (n.PackageName, n.SrcPath, n.Builder)) =
        [("libA", "/proj/vendor/src/libA", ["make A"])] ∧
      (∀ n ∈ F ++ G, n.DlStatus = DlStatusSkip ∨ n.DlStatus = DlStatusOk) :=
  ⟨by decide, C5_children_are_files_then_git_nodes (demoSys []) ⟨"/proj"⟩ 3 "/proj"
    rootManifest rootTree [] (by decide)⟩

theorem Inv_failed_is_last (S : Sys) (log : List Event) (t : DependencyTree) (out : DlOut)
    (h : Inv S log t out) :
    ∃ new, out.log = log ++ new ∧
      (∀ pre ev post, new = pre ++ ev :: post →
        ev.result = S.Fetch (log ++ pre) ev.call ∧ statOk S (log ++ pre) ev.call) ∧
      (∀ pre ev post e, new = pre ++ ev :: post → ev.result = some e →
        post = [] ∧ out.res = .err e) ∧
      t.Dependency <+: out.tree.Dependency := by
  obtain ⟨new, added, h1, h2, h3, h4, h5⟩ := h
  refine ⟨new, h1, ?_, ?_, ?_⟩
  · intro pre ev post hsplit
    rw [hsplit] at h4 h5
    rw [StatChecked_append] at h5
    exact ⟨Faithful_split S.Fetch log pre post ev h4, h5.2.1⟩
  · intro pre2 ev post e2 hsplit hev
    rcases h3 with h3 | ⟨pre, c, e, h6, h7, h8⟩
    · have : ev.result = none := h3 ev (by rw [hsplit]; simp)
      rw [this] at hev
      cases hev
    · rw [h6] at hsplit
      obtain ⟨hp, he⟩ := failed_is_last pre pre2 post c e e2 ev h7 hsplit hev
      exact ⟨hp, by rw [h8, he]⟩
  · rw [h2, setDependency_Dependency]
    exact List.prefix_append _ _

theorem gitStep_found (S : Sys) (g : get)
    (dl : String → Packages → DependencyTree → List Event → DlOut)
    (pkgHome : String) (entry : String × GitPackage) (t : DependencyTree) (log : List Event)
    (hs : S.Stat log (S.GetPackageSrcPath pkgHome entry.1) = .found) :
    gitStep S g dl pkgHome entry t log =
      gitAttach S g dl (S.GetPackageSrcPath pkgHome entry.1)
        (.mk ⟨entry.1, S.GetPackageSrcPath pkgHome entry.1⟩ [] entry.2.Package.Build DlStatusSkip)
        t log := by
  simp only [gitStep, hs]
  rfl

theorem gitStep_fetched (S : Sys) (g : get)
    (dl : String → Packages → DependencyTree → List Event → DlOut)
    (pkgHome : String) (entry : String × GitPackage) (t : DependencyTree) (log : List Event)
    (hs : S.Stat log (S.GetPackageSrcPath pkgHome entry.1) = .notExist)
    (hf : S.Fetch log (.gitSrc (S.GetPackageSrcPath pkgHome entry.1) entry.1
        entry.2.Path entry.2.Hash entry.2.Branch entry.2.Tag) = none) :
    gitStep S g dl pkgHome entry t log =
      gitAttach S g dl (S.GetPackageSrcPath pkgHome entry.1)
        (.mk ⟨entry.1, S.GetPackageSrcPath pkgHome entry.1⟩ [] entry.2.Package.Build DlStatusOk)
        t (log ++ [⟨.gitSrc (S.GetPackageSrcPath pkgHome entry.1) entry.1
          entry.2.Path entry.2.Hash entry.2.Branch entry.2.Tag, none⟩]) := by
  simp only [gitStep, hs, hf]
  rfl

theorem filesStep_nodes (S : Sys) (pkgHome : String) (entry : String × FilesPackage)
    (t : DependencyTree) (log : List Event) :
    ∃ added, (filesStep S pkgHome entry t log).tree = t.setDependency (t.Dependency ++ added) ∧
      added.map nodeKey <+: [entryKey S pkgHome entry.1 entry.2.Package.Build] ∧
      ((filesStep S pkgHome entry t log).res = .ok →
        added.map nodeKey = [entryKey S pkgHome entry.1 entry.2.Package.Build]) := by
  by_cases hok : (filesStep S pkgHome entry t log).res = .ok
  · obtain ⟨n, h1, h2, -, -⟩ := filesStep_ok S pkgHome entry t log hok
    exact ⟨[n], h1, by simp [h2], fun _ => by simp [h2]⟩
  · refine ⟨[], ?_, List.nil_prefix, fun h => absurd h hok⟩
    revert hok
    cases hs : S.Stat log (S.GetPackageSrcPath pkgHome entry.1) with
    | found => simp [filesStep, hs]
    | failed e => simp [filesStep, hs, setDependency_self]
    | notExist =>
      cases hf : S.Fetch log (.filesSrc (S.GetPackageSrcPath pkgHome entry.1) entry.1
          entry.2.Path entry.2.Files) with
      | some e => simp [filesStep, hs, hf, setDependency_self]
      | none => simp [filesStep, hs, hf]

theorem filesLoop_nodes (S : Sys) (pkgHome : String) (l : List (String × FilesPackage))
    (t : DependencyTree) (log : List Event) :
    ∃ F, (filesLoop S pkgHome l t log).tree = t.setDependency (t.Dependency ++ F) ∧
      F.map nodeKey <+: l.map (fun e => entryKey S pkgHome e.1 e.2.Package.Build) ∧
      ((filesLoop S pkgHome l t log).res = .ok →
        F.map nodeKey = l.map (fun e => entryKey S pkgHome e.1 e.2.Package.Build)) := by
  induction l generalizing t log with
  | nil => exact ⟨[], by simp [filesLoop, setDependency_self], by simp, fun _ => rfl⟩
  | cons entry rest ih =>
    rw [filesLoop_cons]
    obtain ⟨added, h1, h2, h3⟩ := filesStep_nodes S pkgHome entry t log
    by_cases h : (filesStep S pkgHome entry t log).res = .ok
    · simp only [h, if_true]
      obtain ⟨F, g1, g2, g3⟩ := ih (filesStep S pkgHome entry t log).tree
        (filesStep S pkgHome entry t log).log
      refine ⟨added ++ F, ?_, ?_, ?_⟩
      · rw [g1, h1, setDependency_setDependency, setDependency_Dependency, List.append_assoc]
      · rw [List.map_append, h3 h]
        simpa [List.cons_prefix_cons] using g2
      · intro hok
        rw [List.map_append, h3 h, g3 hok]
        rfl
    · simp only [h, if_false]
      refine ⟨added, h1, h2.trans ?_, fun hok => by first | exact absurd hok h | exact hok.elim⟩
      simp [List.cons_prefix_cons]

theorem gitStep_nodes (S : Sys) (g : get)
    (dl : String → Packages → DependencyTree → List Event → DlOut)
    (hdl : ∀ ph pk t l, Inv S l t (dl ph pk t l))
    (pkgHome : String) (entry : String × GitPackage) (t : DependencyTree) (log : List Event) :
    ∃ added, (gitStep S g dl pkgHome entry t log).tree =
        t.setDependency (t.Dependency ++ added) ∧
      added.map nodeKey <+: [entryKey S pkgHome entry.1 entry.2.Package.Build] ∧
      ((gitStep S g dl pkgHome entry t log).res = .ok →
        added.map nodeKey = [entryKey S pkgHome entry.1 entry.2.Package.Build]) := by
  cases hs : S.Stat log (S.GetPackageSrcPath pkgHome entry.1) with
  | found =>
    rw [gitStep_found S g dl pkgHome entry t log hs]
    obtain ⟨n, h1, h2, -⟩ := gitAttach_tree S g dl hdl (S.GetPackageSrcPath pkgHome entry.1)
      (.mk ⟨entry.1, S.GetPackageSrcPath pkgHome entry.1⟩ [] entry.2.Package.Build DlStatusSkip)
      t log
    have hk : nodeKey n = entryKey S pkgHome entry.1 entry.2.Package.Build := h2
    exact ⟨[n], h1, by simp [hk], fun _ => by simp [hk]⟩
  | failed e =>
    refine ⟨[], by simp [gitStep, hs, setDependency_self], List.nil_prefix, ?_⟩
    simp [gitStep, hs]
  | notExist =>
    cases hf : S.Fetch log (.gitSrc (S.GetPackageSrcPath pkgHome entry.1) entry.1
        entry.2.Path entry.2.Hash entry.2.Branch entry.2.Tag) with
    | some e =>
      refine ⟨[], by simp [gitStep, hs, hf, setDependency_self], List.nil_prefix, ?_⟩
      simp [gitStep, hs, hf]
    | none =>
      rw [gitStep_fetched S g dl pkgHome entry t log hs hf]
      obtain ⟨n, h1, h2, -⟩ := gitAttach_tree S g dl hdl (S.GetPackageSrcPath pkgHome entry.1)
        (.mk ⟨entry.1, S.GetPackageSrcPath pkgHome entry.1⟩ [] entry.2.Package.Build DlStatusOk)
        t (log ++ [⟨.gitSrc (S.GetPackageSrcPath pkgHome entry.1) entry.1
          entry.2.Path entry.2.Hash entry.2.Branch entry.2.Tag, none⟩])
      have hk : nodeKey n = entryKey S pkgHome entry.1 entry.2.Package.Build := h2
      exact ⟨[n], h1, by simp [hk], fun _ => by simp [hk]⟩

theorem gitLoop_nodes (S : Sys) (g : get)
    (dl : String → Packages → DependencyTree → List Event → DlOut)
    (hdl : ∀ ph pk t l, Inv S l t (dl ph pk t l))
    (pkgHome : String) (l : List (String × GitPackage)) (t : DependencyTree) (log : List Event) :
    ∃ G, (gitLoop S g dl pkgHome l t log).tree = t.setDependency (t.Dependency ++ G) ∧
      G.map nodeKey <+: l.map (fun e => entryKey S pkgHome e.1 e.2.Package.Build) ∧
      ((gitLoop S g dl pkgHome l t log).res = .ok →
        G.map nodeKey = l.map (fun e => entryKey S pkgHome e.1 e.2.Package.Build)) := by
  induction l generalizing t log with
  | nil => exact ⟨[], by simp [gitLoop, setDependency_self], by simp, fun _ => rfl⟩
  | cons entry rest ih =>
    rw [gitLoop_cons]
    obtain ⟨added, h1, h2, h3⟩ := gitStep_nodes S g dl hdl pkgHome entry t log
    by_cases h : (gitStep S g dl pkgHome entry t log).res = .ok
    · simp only [h, if_true]
      obtain ⟨G, g1, g2, g3⟩ := ih (gitStep S g dl pkgHome entry t log).tree
        (gitStep S g dl pkgHome entry t log).log
      refine ⟨added ++ G, ?_, ?_, ?_⟩
      · rw [g1, h1, setDependency_setDependency, setDependency_Dependency, List.append_assoc]
      · rw [List.map_append, h3 h]
        simpa [List.cons_prefix_cons] using g2
      · intro hok
        rw [List.map_append, h3 h, g3 hok]
        rfl
    · simp only [h, if_false]
      refine ⟨added, h1, h2.trans ?_, fun hok => by first | exact absurd hok h | exact hok.elim⟩
      simp [List.cons_prefix_cons]

/-- Where the nodes of a call of dlSrc land, however the call ends. -/
theorem dlSrc_nodes (S : Sys) (g : get) (fuel : Nat) (pkgHome : String) (packages : Packages)
    (t : DependencyTree) (log : List Event) :
    ∃ F G, (dlSrc S g fuel pkgHome packages t log).tree =
        t.setDependency (t.Dependency ++ (F ++ G)) ∧
      F.map nodeKey <+:
        packages.FilesPackages.map (fun e => entryKey S pkgHome e.1 e.2.Package.Build) ∧
      G.map nodeKey <+:
        packages.GitPackages.map (fun e => entryKey S pkgHome e.1 e.2.Package.Build) ∧
      (G ≠ [] → F.map nodeKey =
        packages.FilesPackages.map (fun e => entryKey S pkgHome e.1 e.2.Package.Build)) ∧
      ((dlSrc S g fuel pkgHome packages t log).res = .ok →
        F.map nodeKey =
          packages.FilesPackages.map (fun e => entryKey S pkgHome e.1 e.2.Package.Build) ∧
        G.map nodeKey =
          packages.GitPackages.map (fun e => entryKey S pkgHome e.1 e.2.Package.Build)) := by
  cases fuel with
  | zero =>
    exact ⟨[], [], by simp [dlSrc, setDependency_self], List.nil_prefix, List.nil_prefix,
      fun h => absurd rfl h, fun h => by simp [dlSrc] at h⟩
  | succ n =>
    rw [dlSrc_succ]
    cases hr : (archiveLoop S pkgHome packages.ArchivePackages log).2 with
    | some e =>
      exact ⟨[], [], by simp [setDependency_self], List.nil_prefix, List.nil_prefix,
        fun h => absurd rfl h, fun h => by simp at h⟩
    | none =>
      simp only
      obtain ⟨F, f1, f2, f3⟩ := filesLoop_nodes S pkgHome packages.FilesPackages t
        (archiveLoop S pkgHome packages.ArchivePackages log).1
      by_cases h : (filesLoop S pkgHome packages.FilesPackages t
            (archiveLoop S pkgHome packages.ArchivePackages log).1).res = .ok
      · simp only [h, if_true]
        obtain ⟨G, g1, g2, g3⟩ := gitLoop_nodes S g (dlSrc S g n) (dlSrc_Inv S g n) pkgHome
          packages.GitPackages
          (filesLoop S pkgHome packages.FilesPackages t
            (archiveLoop S pkgHome packages.ArchivePackages log).1).tree
          (filesLoop S pkgHome packages.FilesPackages t
            (archiveLoop S pkgHome packages.ArchivePackages log).1).log
        refine ⟨F, G, ?_, f2, g2, fun _ => f3 h, fun hok => ⟨f3 h, g3 hok⟩⟩
        rw [g1, f1, setDependency_setDependency, setDependency_Dependency, List.append_assoc]
      · simp only [h, if_false]
        exact ⟨F, [], by rw [f1, List.append_nil], f2, List.nil_prefix,
          fun hn => absurd rfl hn, fun hok => by first | exact absurd hok h | exact hok.elim⟩

theorem gitAttach_nested (S : Sys) (g : get) (fuel : Nat) (srcDes key : String)
    (build : List String) (st : Nat) (t : DependencyTree) (log1 : List Event)
    (nested : Packages)
    (hm : S.ReadManifest log1 (S.Join srcDes S.PkgFileName) = .ok nested) :
    ∃ node F G,
      (gitAttach S g (dlSrc S g fuel) srcDes (.mk ⟨key, srcDes⟩ [] build st) t log1).tree.Dependency
        = t.Dependency ++ [node] ∧
      node.PackageName = key ∧ node.SrcPath = srcDes ∧ node.Dependency = F ++ G ∧
      F.map (fun n => (n.PackageName, n.SrcPath)) <+:
        nested.FilesPackages.map (fun e => (e.1, S.GetPackageSrcPath g.PkgHome e.1)) ∧
      G.map (fun n => (n.PackageName, n.SrcPath)) <+:
        nested.GitPackages.map (fun e => (e.1, S.GetPackageSrcPath g.PkgHome e.1)) ∧
      (G ≠ [] → F.map (fun n => (n.PackageName, n.SrcPath)) =
        nested.FilesPackages.map (fun e => (e.1, S.GetPackageSrcPath g.PkgHome e.1))) ∧
      (gitAttach S g (dlSrc S g fuel) srcDes (.mk ⟨key, srcDes⟩ [] build st) t log1).res =
        (dlSrc S g fuel g.PkgHome nested (node.setDependency []) log1).res ∧
      ((gitAttach S g (dlSrc S g fuel) srcDes (.mk ⟨key, srcDes⟩ [] build st) t log1).res = .ok →
        F.map (fun n => (n.PackageName, n.SrcPath)) =
          nested.FilesPackages.map (fun e => (e.1, S.GetPackageSrcPath g.PkgHome e.1)) ∧
        G.map (fun n => (n.PackageName, n.SrcPath)) =
          nested.GitPackages.map (fun e => (e.1, S.GetPackageSrcPath g.PkgHome e.1))) := by
  simp only [gitAttach, installSubDependency, hm]
  obtain ⟨F, G, h1, h2, h3, h4, h5⟩ := dlSrc_nodes S g fuel g.PkgHome nested
    (.mk ⟨key, srcDes⟩ [] build st) log1
  have kF : ∀ l : List DependencyTree, ∀ es : List (String × String × List String),
      l.map nodeKey <+: es →
      l.map (fun n => (n.PackageName, n.SrcPath)) <+:
        es.map (fun k : String × String × List String => (k.1, k.2.1)) := by
    intro l es hp
    have := hp.map (fun k : String × String × List String => (k.1, k.2.1))
    simpa [List.map_map, Function.comp_def, nodeKey] using this
  have kE : ∀ l : List DependencyTree, ∀ es : List (String × String × List String),
      l.map nodeKey = es →
      l.map (fun n => (n.PackageName, n.SrcPath)) =
        es.map (fun k : String × String × List String => (k.1, k.2.1)) := by
    intro l es hp
    have := congrArg (List.map (fun k : String × String × List String => (k.1, k.2.1))) hp
    simpa [List.map_map, Function.comp_def, nodeKey] using this
  have eF : (nested.FilesPackages.map
      (fun e => entryKey S g.PkgHome e.1 e.2.Package.Build)).map
        (fun k : String × String × List String => (k.1, k.2.1)) =
      nested.FilesPackages.map (fun e => (e.1, S.GetPackageSrcPath g.PkgHome e.1)) := by
    simp [List.map_map, Function.comp_def, entryKey]
  have eG : (nested.GitPackages.map
      (fun e => entryKey S g.PkgHome e.1 e.2.Package.Build)).map
        (fun k : String × String × List String => (k.1, k.2.1)) =
      nested.GitPackages.map (fun e => (e.1, S.GetPackageSrcPath g.PkgHome e.1)) := by
    simp [List.map_map, Function.comp_def, entryKey]
  refine ⟨_, F, G, by rw [setDependency_Dependency], ?_, ?_, ?_, ?_, ?_, ?_, ?_, ?_⟩
  · rw [h1]; rfl
  · rw [h1]; rfl
  · rw [h1, setDependency_Dependency]; rfl
  · rw [← eF]; exact kF F _ h2
  · rw [← eG]; exact kF G _ h3
  · intro hn; rw [← eF]; exact kE F _ (h4 hn)
  · rw [h1, setDependency_setDependency]; rfl
  · intro hok
    obtain ⟨a, b⟩ := h5 hok
    exact ⟨by rw [← eF]; exact kE F _ a, by rw [← eG]; exact kE G _ b⟩

theorem gitAttach_leaf (S : Sys) (g : get)
    (dl : String → Packages → DependencyTree → List Event → DlOut) (srcDes key : String)
    (build : List String) (st : Nat) (t : DependencyTree) (log1 : List Event) (e : Err)
    (hm : S.ReadManifest log1 (S.Join srcDes S.PkgFileName) = .openNotExist e) :
    (gitAttach S g dl srcDes (.mk ⟨key, srcDes⟩ [] build st) t log1).res = .ok ∧
    ∃ node,
      (gitAttach S g dl srcDes (.mk ⟨key, srcDes⟩ [] build st) t log1).tree.Dependency
        = t.Dependency ++ [node] ∧
      node.PackageName = key ∧ node.Dependency = [] := by
  constructor
  · simp [gitAttach, installSubDependency, hm]
  · exact ⟨.mk ⟨key, srcDes⟩ [] build st,
      by simp [gitAttach, installSubDependency, hm, setDependency_Dependency], rfl, rfl⟩

/-- C4 (as amended): for a git entry A whose source directory exists already or
is fetched without error, with the history `log1` at the moment its manifest
is looked for. When the directory holds a manifest: the parent gets exactly
one new child, the node of A; the children of that node are nodes of the
files entries of the nested manifest, in order from the first, followed by
nodes of its git entries, in order from the first and only once every files
entry has its node, each with the source path derived from `get.PkgHome`
and its own name; the step returns what dlSrc returns on the nested
manifest; and when that is nil every files and git entry has its node. When
the directory holds no manifest the step returns nil and the node of A has
no children. -/
theorem C4_nested_manifest_entries_become_children (S : Sys) (g : get) (fuel : Nat)
    (pkgHome : String) (entry : String × GitPackage) (parent : DependencyTree)
    (log log1 : List Event)
    (hsrc : (S.Stat log (S.GetPackageSrcPath pkgHome entry.1) = .found ∧ log1 = log) ∨
      (S.Stat log (S.GetPackageSrcPath pkgHome entry.1) = .notExist ∧
        S.Fetch log (.gitSrc (S.GetPackageSrcPath pkgHome entry.1) entry.1
          entry.2.Path entry.2.Hash entry.2.Branch entry.2.Tag) = none ∧
        log1 = log ++ [⟨.gitSrc (S.GetPackageSrcPath pkgHome entry.1) entry.1
          entry.2.Path entry.2.Hash entry.2.Branch entry.2.Tag, none⟩])) :
    (∀ nested,
      S.ReadManifest log1 (S.Join (S.GetPackageSrcPath pkgHome entry.1) S.PkgFileName)
        = .ok nested →
      ∃ node F G,
        (gitStep S g (dlSrc S g fuel) pkgHome entry parent log).tree.Dependency
          = parent.Dependency ++ [node] ∧
        node.PackageName = entry.1 ∧
        node.SrcPath = S.GetPackageSrcPath pkgHome entry.1 ∧
        node.Dependency = F ++ G ∧
        F.map (fun n => (n.PackageName, n.SrcPath)) <+:
          nested.FilesPackages.map (fun e => (e.1, S.GetPackageSrcPath g.PkgHome e.1)) ∧
        G.map (fun n => (n.PackageName, n.SrcPath)) <+:
          nested.GitPackages.map (fun e => (e.1, S.GetPackageSrcPath g.PkgHome e.1)) ∧
        (G ≠ [] → F.map (fun n => (n.PackageName, n.SrcPath)) =
          nested.FilesPackages.map (fun e => (e.1, S.GetPackageSrcPath g.PkgHome e.1))) ∧
        (gitStep S g (dlSrc S g fuel) pkgHome entry parent log).res =
          (dlSrc S g fuel g.PkgHome nested (node.setDependency []) log1).res ∧
        ((gitStep S g (dlSrc S g fuel) pkgHome entry parent log).res = .ok →
          F.map (fun n => (n.PackageName, n.SrcPath)) =
            nested.FilesPackages.map (fun e => (e.1, S.GetPackageSrcPath g.PkgHome e.1)) ∧
          G.map (fun n => (n.PackageName, n.SrcPath)) =
            nested.GitPackages.map (fun e => (e.1, S.GetPackageSrcPath g.PkgHome e.1)))) ∧
    (∀ e,
      S.ReadManifest log1 (S.Join (S.GetPackageSrcPath pkgHome entry.1) S.PkgFileName)
        = .openNotExist e →
      (gitStep S g (dlSrc S g fuel) pkgHome entry parent log).res = .ok ∧
      ∃ node,
        (gitStep S g (dlSrc S g fuel) pkgHome entry parent log).tree.Dependency
          = parent.Dependency ++ [node] ∧
        node.PackageName = entry.1 ∧ node.Dependency = []) := by
  rcases hsrc with ⟨hs, h1⟩ | ⟨hs, hf, h1⟩
  · rw [gitStep_found S g _ pkgHome entry parent log hs, h1]
    exact ⟨fun nested hm => gitAttach_nested S g fuel _ _ _ _ parent _ nested hm,
      fun e hm => gitAttach_leaf S g _ _ _ _ _ parent _ e hm⟩
  · rw [gitStep_fetched S g _ pkgHome entry parent log hs hf, h1]
    exact ⟨fun nested hm => gitAttach_nested S g fuel _ _ _ _ parent _ nested hm,
      fun e hm => gitAttach_leaf S g _ _ _ _ _ parent _ e hm⟩

/-- C4 (as amended) on `libA` of the demonstration project, whose source carries a
manifest with the files package `fB` and the git package `libB`: the step
returns nil and both become children of the node of `libA`, with paths under
`/proj/vendor/src`; so they do in the tree of dlSrc on the whole project. -/
theorem C4_nested_manifest_entries_become_children_witness :
    (demoSys []).Stat [] "/proj/vendor/src/libA" = .notExist ∧
    (gitStep (demoSys []) ⟨"/proj"⟩ (dlSrc (demoSys []) ⟨"/proj"⟩ 2) "/proj"
      ("libA", ⟨"https://example.test/libA.git", "", "main", "", ⟨["make"], ["make A"]⟩⟩)
      rootTree []).res = .ok ∧
    ∃ node F G,
      (gitStep (demoSys []) ⟨"/proj"⟩ (dlSrc (demoSys []) ⟨"/proj"⟩ 2) "/proj"
        ("libA", ⟨"https://example.test/libA.git", "", "main", "", ⟨["make"], ["make A"]⟩⟩)
        rootTree []).tree.Dependency = rootTree.Dependency ++ [node] ∧
      node.PackageName = "libA" ∧ node.Dependency = F ++ G ∧
      F.map (fun n => (n.PackageName, n.SrcPath)) = [("fB", "/proj/vendor/src/fB")] ∧
      G.map (fun n => (n.PackageName, n.SrcPath)) = [("libB", "/proj/vendor/src/libB")] ∧
      (dlSrc (demoSys []) ⟨"/proj"⟩ 3 "/proj" rootManifest rootTree []).tree.Dependency.map
        (fun n => (n.PackageName, n.Dependency.map (fun c => (c.PackageName, c.SrcPath)))) =
        [("hdr", []),
         ("libA", [("fB", "/proj/vendor/src/fB"), ("libB", "/proj/vendor/src/libB")])] := by
  obtain ⟨node, F, G, h1, h2, -, h4, -, -, -, -, h9⟩ :=
    (C4_nested_manifest_entries_become_children (demoSys []) ⟨"/proj"⟩ 2 "/proj"
      ("libA", ⟨"https://example.test/libA.git", "", "main", "", ⟨["make"], ["make A"]⟩⟩)
      rootTree [] _ (Or.inr ⟨by decide, by decide, rfl⟩)).1 nestedManifest (by decide)
  have hok : (gitStep (demoSys []) ⟨"/proj"⟩ (dlSrc (demoSys []) ⟨"/proj"⟩ 2) "/proj"
      ("libA", ⟨"https://example.test/libA.git", "", "main", "", ⟨["make"], ["make A"]⟩⟩)
      rootTree []).res = .ok := by decide
  obtain ⟨hF, hG⟩ := h9 hok
  exact ⟨by decide, hok, node, F, G, h1, h2, h4, hF, hG, by decide⟩

/-- C4 as stated fails: the source of `libC` is fetched and carries a manifest
with the files packages `hdr` and `bad` and the git package `libA`; the
download of `bad` fails, and the node of `libC` has the node of `hdr` as its
only child: `bad` and `libA` are no children of it. -/
theorem C4_failed_nested_fetch_leaves_entries_out :
    (demoSys []).ReadManifest
      [⟨.gitSrc "/proj/vendor/src/libC" "libC" "https://example.test/libC.git" "" "" "", none⟩]
      "/proj/vendor/src/libC/pkg.json" = .ok badManifest ∧
    badManifest.FilesPackages.map (fun e => e.1) = ["hdr", "bad"] ∧
    badManifest.GitPackages.map (fun e => e.1) = ["libA"] ∧
    (gitStep (demoSys []) ⟨"/proj"⟩ (dlSrc (demoSys []) ⟨"/proj"⟩ 2) "/proj"
      ("libC", ⟨"https://example.test/libC.git", "", "", "", ⟨[], []⟩⟩)
      rootTree []).res = .err "http response code is not ok (200)" ∧
    (gitStep (demoSys []) ⟨"/proj"⟩ (dlSrc (demoSys []) ⟨"/proj"⟩ 2) "/proj"
      ("libC", ⟨"https://example.test/libC.git", "", "", "", ⟨[], []⟩⟩)
      rootTree []).tree.Dependency.map
        (fun n => (n.PackageName, n.Dependency.map (fun c => c.PackageName))) =
      [("libC", ["hdr"])] := by
  decide

/-- C3 (as amended): anywhere in the walk of dlSrc, `filesSrc` and `gitSrc` are
invoked only at a moment when `os.Stat` of the destination path reports that
it does not exist; a files entry or a git entry whose destination path
exists gets a node with status `DlStatusSkip` (for a files entry without any
fetcher invocation); and when the path does not exist the fetcher of the
entry is the next invocation. -/
theorem C3_files_and_git_fetch_only_when_absent (S : Sys) (g : get) (fuel : Nat)
    (pkgHome : String) (packages : Packages) (t : DependencyTree) (log : List Event) :
    (∃ new, (dlSrc S g fuel pkgHome packages t log).log = log ++ new ∧
      ∀ pre ev post, new = pre ++ ev :: post →
        (∀ srcDes name baseUrl files, ev.call = .filesSrc srcDes name baseUrl files →
          S.Stat (log ++ pre) srcDes = .notExist) ∧
        (∀ srcDes name gitPath hash branch tag,
          ev.call = .gitSrc srcDes name gitPath hash branch tag →
          S.Stat (log ++ pre) srcDes = .notExist)) ∧
    (∀ entry : String × FilesPackage,
      S.Stat log (S.GetPackageSrcPath pkgHome entry.1) = .found →
      (filesStep S pkgHome entry t log).log = log ∧
      (filesStep S pkgHome entry t log).res = .ok ∧
      ∃ node, (filesStep S pkgHome entry t log).tree.Dependency = t.Dependency ++ [node] ∧
        node.PackageName = entry.1 ∧ node.DlStatus = DlStatusSkip) ∧
    (∀ entry : String × GitPackage,
      S.Stat log (S.GetPackageSrcPath pkgHome entry.1) = .found →
      ∃ node, (gitStep S g (dlSrc S g fuel) pkgHome entry t log).tree.Dependency
          = t.Dependency ++ [node] ∧
        node.PackageName = entry.1 ∧ node.DlStatus = DlStatusSkip) ∧
    (∀ entry : String × FilesPackage,
      S.Stat log (S.GetPackageSrcPath pkgHome entry.1) = .notExist →
      (filesStep S pkgHome entry t log).log =
        log ++ [⟨.filesSrc (S.GetPackageSrcPath pkgHome entry.1) entry.1 entry.2.Path
            entry.2.Files,
          S.Fetch log (.filesSrc (S.GetPackageSrcPath pkgHome entry.1) entry.1 entry.2.Path
            entry.2.Files)⟩]) ∧
    (∀ entry : String × GitPackage,
      S.Stat log (S.GetPackageSrcPath pkgHome entry.1) = .notExist →
      ∃ rest, (gitStep S g (dlSrc S g fuel) pkgHome entry t log).log =
        log ++ ⟨.gitSrc (S.GetPackageSrcPath pkgHome entry.1) entry.1 entry.2.Path
            entry.2.Hash entry.2.Branch entry.2.Tag,
          S.Fetch log (.gitSrc (S.GetPackageSrcPath pkgHome entry.1) entry.1 entry.2.Path
            entry.2.Hash entry.2.Branch entry.2.Tag)⟩ :: rest) := by
  refine ⟨?_, ?_, ?_, ?_, ?_⟩
  · obtain ⟨new, h1, h2, -, -⟩ := Inv_failed_is_last S log t _
      (dlSrc_Inv S g fuel pkgHome packages t log)
    refine ⟨new, h1, fun pre ev post hsplit => ⟨?_, ?_⟩⟩
    · intro srcDes name baseUrl files hc
      have := (h2 pre ev post hsplit).2
      rw [hc] at this
      exact this
    · intro srcDes name gitPath hash branch tag hc
      have := (h2 pre ev post hsplit).2
      rw [hc] at this
      exact this
  · intro entry hs
    refine ⟨by simp [filesStep, hs], by simp [filesStep, hs],
      .mk ⟨entry.1, S.GetPackageSrcPath pkgHome entry.1⟩ [] entry.2.Package.Build DlStatusSkip,
      ?_, rfl, rfl⟩
    simp only [filesStep, hs, setDependency_Dependency]
    rfl
  · intro entry hs
    rw [gitStep_found S g _ pkgHome entry t log hs]
    obtain ⟨n, h1, h2, h3⟩ := gitAttach_tree S g (dlSrc S g fuel) (dlSrc_Inv S g fuel)
      (S.GetPackageSrcPath pkgHome entry.1)
      (.mk ⟨entry.1, S.GetPackageSrcPath pkgHome entry.1⟩ [] entry.2.Package.Build DlStatusSkip)
      t log
    refine ⟨n, by rw [h1, setDependency_Dependency], ?_, h3⟩
    have := congrArg (fun k : String × String × List String => k.1) h2
    exact this
  · intro entry hs
    cases hf : S.Fetch log (.filesSrc (S.GetPackageSrcPath pkgHome entry.1) entry.1
        entry.2.Path entry.2.Files) with
    | some e => simp only [filesStep, hs, hf]
    | none => simp only [filesStep, hs, hf]
  · intro entry hs
    cases hf : S.Fetch log (.gitSrc (S.GetPackageSrcPath pkgHome entry.1) entry.1
        entry.2.Path entry.2.Hash entry.2.Branch entry.2.Tag) with
    | some e =>
      simp only [gitStep, hs, hf]
      exact ⟨[], rfl⟩
    | none =>
      rw [gitStep_fetched S g _ pkgHome entry t log hs hf]
      obtain ⟨new, added, h1, -⟩ := gitAttach_Inv S g (dlSrc S g fuel) (dlSrc_Inv S g fuel)
        (S.GetPackageSrcPath pkgHome entry.1)
        (.mk ⟨entry.1, S.GetPackageSrcPath pkgHome entry.1⟩ [] entry.2.Package.Build DlStatusOk)
        t (log ++ [⟨.gitSrc (S.GetPackageSrcPath pkgHome entry.1) entry.1
          entry.2.Path entry.2.Hash entry.2.Branch entry.2.Tag, none⟩])
      exact ⟨new, by rw [h1]; simp⟩

/-- C3 on the demonstration project when the sources of `hdr` are there already:
no fetcher is invoked for `hdr` and its node has status `DlStatusSkip`. -/
theorem C3_files_and_git_fetch_only_when_absent_witness :
    (demoSys ["/proj/vendor/src/hdr"]).Stat [] "/proj/vendor/src/hdr" = .found ∧
    (filesStep (demoSys ["/proj/vendor/src/hdr"]) "/proj"
      ("hdr", ⟨"https://example.test/hdr", [("a.h", "a.h")], ⟨[], ["echo hdr"]⟩⟩)
      rootTree []).log = [] ∧
    (filesStep (demoSys ["/proj/vendor/src/hdr"]) "/proj"
      ("hdr", ⟨"https://example.test/hdr", [("a.h", "a.h")], ⟨[], ["echo hdr"]⟩⟩)
      rootTree []).res = .ok :=
  ⟨by decide,
    ((C3_files_and_git_fetch_only_when_absent (demoSys ["/proj/vendor/src/hdr"]) ⟨"/proj"⟩ 1
      "/proj" rootManifest rootTree []).2.1
      ("hdr", ⟨"https://example.test/hdr", [("a.h", "a.h")], ⟨[], ["echo hdr"]⟩⟩)
      (by decide)).1,
    ((C3_files_and_git_fetch_only_when_absent (demoSys ["/proj/vendor/src/hdr"]) ⟨"/proj"⟩ 1
      "/proj" rootManifest rootTree []).2.1
      ("hdr", ⟨"https://example.test/hdr", [("a.h", "a.h")], ⟨[], ["echo hdr"]⟩⟩)
      (by decide)).2.1⟩

/-- C3 as stated fails for an archive entry: the destination path of `zlib`
exists, and dlSrc invokes `archiveSrc` for it all the same. -/
theorem C3_archive_is_fetched_though_present :
    (demoSys ["/proj", "/proj/vendor/src/zlib"]).Stat []
      ((demoSys ["/proj", "/proj/vendor/src/zlib"]).GetPackageSrcPath "/proj" "zlib") = .found ∧
    (demoSys ["/proj", "/proj/vendor/src/zlib"]).Stat [] "/proj" = .found ∧
    (dlSrc (demoSys ["/proj", "/proj/vendor/src/zlib"]) ⟨"/proj"⟩ 1 "/proj" archiveManifest
      rootTree []).log = [⟨.archiveSrc "/proj" "zlib" "https://example.test/zlib.zip", none⟩] := by
  decide

/-- C6 (as amended): a fetcher invocation that fails, anywhere in the walk, is the
last invocation made, and its error is the error dlSrc returns; the recorded
outcomes are those of the fetchers; the children the tree had before the
call stay, in order, at the front of its children. -/
theorem C6_fetch_failure_aborts_the_walk (S : Sys) (g : get) (fuel : Nat)
    (pkgHome : String) (packages : Packages) (t : DependencyTree) (log : List Event) :
    ∃ new, (dlSrc S g fuel pkgHome packages t log).log = log ++ new ∧
      (∀ pre ev post, new = pre ++ ev :: post → ev.result = S.Fetch (log ++ pre) ev.call) ∧
      (∀ pre ev post e, new = pre ++ ev :: post → ev.result = some e →
        post = [] ∧ (dlSrc S g fuel pkgHome packages t log).res = .err e) ∧
      t.Dependency <+: (dlSrc S g fuel pkgHome packages t log).tree.Dependency := by
  obtain ⟨new, h1, h2, h3, h4⟩ := Inv_failed_is_last S log t _
    (dlSrc_Inv S g fuel pkgHome packages t log)
  exact ⟨new, h1, fun pre ev post hsplit => (h2 pre ev post hsplit).1, h3, h4⟩

/-- C6 as stated fails: the download of `bad` fails after `hdr` was fetched; dlSrc
returns the error, makes no further invocation, and the tree passed in, which
had no children, now holds the node of `hdr`. -/
theorem C6_failed_call_leaves_added_nodes :
    (dlSrc (demoSys []) ⟨"/proj"⟩ 2 "/proj" badManifest rootTree []).res =
      .err "http response code is not ok (200)" ∧
    calls (dlSrc (demoSys []) ⟨"/proj"⟩ 2 "/proj" badManifest rootTree []).log =
      [.filesSrc "/proj/vendor/src/hdr" "hdr" "https://example.test/hdr" [("a.h", "a.h")],
       .filesSrc "/proj/vendor/src/bad" "bad" "https://example.test/bad" [("c.h", "c.h")]] ∧
    rootTree.Dependency = [] ∧
    (dlSrc (demoSys []) ⟨"/proj"⟩ 2 "/proj" badManifest rootTree []).tree.Dependency.map
      (fun n => (n.PackageName, n.DlStatus)) = [("hdr", DlStatusOk)] :=
  ⟨by decide, by decide, rfl, by decide⟩

/-- The method `get.Run` returns on every path of its first statement: it never
calls `buildPkg`, and what it returns is what `dlSrc` returned. -/
theorem Run_never_builds (S : Sys) (buildPkg : DependencyTree → String → Option Err)
    (g : get) (DepTree : DependencyTree) (fuel : Nat) (log : List Event) :
    (Run S buildPkg g DepTree fuel log).builds = [] := by
  unfold Run
  split <;> rfl

/-- C10 fails on the code: on the demonstration project the manifest is read and
decoded and dlSrc returns nil, and `get.Run` returns nil without any call of
`buildPkg`. -/
theorem C10_Run_returns_without_building :
    (demoSys []).ReadManifest [] ((demoSys []).Join "/proj" (demoSys []).PkgFileName) =
      .ok rootManifest ∧
    (dlSrc (demoSys []) ⟨"/proj"⟩ 3 "/proj" rootManifest rootTree []).res = .ok ∧
    (Run (demoSys []) (fun _ _ => none) ⟨"/proj"⟩ rootTree 3 []).res = .ok ∧
    (Run (demoSys []) (fun _ _ => none) ⟨"/proj"⟩ rootTree 3 []).builds = [] :=
  ⟨by decide, by decide, by decide, rfl⟩

/-- C6 (as amended) on the manifest whose second files package cannot be
downloaded: the failing invocation is the last one and dlSrc returns its
error. -/
theorem C6_fetch_failure_aborts_the_walk_witness :
    (dlSrc (demoSys []) ⟨"/proj"⟩ 2 "/proj" badManifest rootTree []).log =
      [⟨.filesSrc "/proj/vendor/src/hdr" "hdr" "https://example.test/hdr" [("a.h", "a.h")], none⟩,
       ⟨.filesSrc "/proj/vendor/src/bad" "bad" "https://example.test/bad" [("c.h", "c.h")],
        some "http response code is not ok (200)"⟩] ∧
    (dlSrc (demoSys []) ⟨"/proj"⟩ 2 "/proj" badManifest rootTree []).res =
      .err "http response code is not ok (200)" := by
  obtain ⟨new, h1, -, h3, -⟩ :=
    C6_fetch_failure_aborts_the_walk (demoSys []) ⟨"/proj"⟩ 2 "/proj" badManifest rootTree []
  have hlog : (dlSrc (demoSys []) ⟨"/proj"⟩ 2 "/proj" badManifest rootTree []).log =
      [⟨.filesSrc "/proj/vendor/src/hdr" "hdr" "https://example.test/hdr" [("a.h", "a.h")], none⟩,
       ⟨.filesSrc "/proj/vendor/src/bad" "bad" "https://example.test/bad" [("c.h", "c.h")],
        some "http response code is not ok (200)"⟩] := by decide
  refine ⟨hlog, ?_⟩
  simp only [List.nil_append] at h1
  rw [h1] at hlog
  exact (h3 [⟨.filesSrc "/proj/vendor/src/hdr" "hdr" "https://example.test/hdr" [("a.h", "a.h")],
      none⟩] _ [] "http response code is not ok (200)" hlog rfl).2

end resolver

end Pkg
